import Mathlib

/-! Shallow embedding of the TradeWise investment tracker backend
    (src/backend/models.py, portfolio.py, sync.py, main.py).

    Calendar dates are modelled as natural numbers (only ordering and
    equality of dates are used by the code), SQL float columns that the
    analytics code does arithmetic on are modelled as rationals, and
    pandas float cells flowing through the sync validation are modelled
    by an explicit value type with NaN and the two infinities, because
    the validation code tests exactly for those. -/

/-- An instrument row of the assets table (models.py, class Asset).
    The name column is nullable, so it is an Option. -/
structure Asset where
  symbol : String
  name : Option String
  asset_type : String
deriving DecidableEq, Repr

/-- A transaction row (models.py, class Transaction). The asset_id
    foreign key is replaced by the referenced asset symbol, which is
    legitimate because Asset.symbol carries a unique constraint; the
    code itself only ever reads tx.asset.symbol. -/
structure Transaction where
  symbol : String
  date : Nat
  type : String
  quantity : ℚ
  price : ℚ
  fees : ℚ
deriving DecidableEq, Repr

/-- A price_history row as consumed by portfolio.py: of the full column
    set only date and the raw close column are read there, and records
    are again keyed by the unique asset symbol. -/
structure PriceHistory where
  symbol : String
  date : Nat
  close : ℚ
deriving DecidableEq, Repr

/-- The database state seen by portfolio.py. List order models table
    scan order (insertion order). -/
structure DB where
  assets : List Asset
  txs : List Transaction
  prices : List PriceHistory
deriving Repr

/-- Python dict with insertion order semantics, as used for defaultdict(float):
    updating an existing key keeps its position and adds the delta, a
    missing key is appended at the end, starting from the default 0. -/
def hUpdate : List (String × ℚ) → String → ℚ → List (String × ℚ)
  | [], s, d => [(s, d)]
  | kv :: rest, s, d =>
    if kv.1 = s then (kv.1, kv.2 + d) :: rest else kv :: hUpdate rest s d

/-- Lookup in the dict model. -/
def hFind (h : List (String × ℚ)) (s : String) : Option ℚ :=
  (h.find? (fun kv => decide (kv.1 = s))).map (fun kv => kv.2)

/-- Key list of the dict model, in insertion order. -/
def hKeys (h : List (String × ℚ)) : List String :=
  h.map (fun kv => kv.1)

/-- Loop body of calculate_portfolio_holdings (portfolio.py lines
    13-18): buy adds the quantity, sell subtracts it, any other type is
    ignored. -/
def applyTxHold (h : List (String × ℚ)) (t : Transaction) : List (String × ℚ) :=
  if t.type = "buy" then hUpdate h t.symbol t.quantity
  else if t.type = "sell" then hUpdate h t.symbol (-t.quantity)
  else h

/-- Transaction replay body of calculate_equity_curve (portfolio.py
    lines 95-98): buy adds the quantity, every other type falls into the
    bare else branch and subtracts it. -/
def applyTxEC (h : List (String × ℚ)) (t : Transaction) : List (String × ℚ) :=
  if t.type = "buy" then hUpdate h t.symbol t.quantity
  else hUpdate h t.symbol (-t.quantity)

/-- calculate_portfolio_holdings (portfolio.py lines 7-21): fold the
    transaction log in table order into a holdings dict, then keep only
    strictly positive quantities. -/
def calculate_portfolio_holdings (db : DB) : List (String × ℚ) :=
  (db.txs.foldl applyTxHold []).filter (fun kv => decide (0 < kv.2))

/-- The transaction query ordered by date (portfolio.py line 75);
    mergeSort is stable, so same-date rows keep insertion order. -/
def sortTxs (ts : List Transaction) : List Transaction :=
  ts.mergeSort (fun a b => decide (a.date ≤ b.date))

/-- Net signed quantity of a symbol over a transaction list, as the
    spec words it: each buy adds its quantity, each sell subtracts it,
    any other type contributes nothing. -/
def netQty (ts : List Transaction) (s : String) : ℚ :=
  (ts.map (fun t =>
    if t.symbol = s then
      (if t.type = "buy" then t.quantity
       else if t.type = "sell" then -t.quantity else 0)
    else 0)).sum

/-! Generic machinery: both fold bodies above are instances of applying
    an optional signed delta per transaction to the dict. -/

def applyDelta (f : Transaction → Option ℚ) (h : List (String × ℚ))
    (t : Transaction) : List (String × ℚ) :=
  match f t with
  | some d => hUpdate h t.symbol d
  | none => h

def holdDelta (t : Transaction) : Option ℚ :=
  if t.type = "buy" then some t.quantity
  else if t.type = "sell" then some (-t.quantity)
  else none

def ecDelta (t : Transaction) : Option ℚ :=
  if t.type = "buy" then some t.quantity else some (-t.quantity)

def deltaSum (f : Transaction → Option ℚ) (ts : List Transaction) (s : String) : ℚ :=
  (ts.map (fun t => if t.symbol = s then (f t).getD 0 else 0)).sum

theorem applyTxHold_eq_delta : applyTxHold = applyDelta holdDelta := by
  funext h t
  simp only [applyTxHold, applyDelta, holdDelta]
  by_cases hb : t.type = "buy" <;> by_cases hs : t.type = "sell" <;> simp [hb, hs]

theorem applyTxEC_eq_delta : applyTxEC = applyDelta ecDelta := by
  funext h t
  simp only [applyTxEC, applyDelta, ecDelta]
  by_cases hb : t.type = "buy" <;> simp [hb]

theorem deltaSum_holdDelta (ts : List Transaction) (s : String) :
    deltaSum holdDelta ts s = netQty ts s := by
  simp only [deltaSum, netQty, holdDelta]
  have hfun : (fun t : Transaction => if t.symbol = s then
      (if t.type = "buy" then some t.quantity
       else if t.type = "sell" then some (-t.quantity) else none).getD 0 else 0) =
      (fun t : Transaction => if t.symbol = s then
      (if t.type = "buy" then t.quantity
       else if t.type = "sell" then -t.quantity else 0) else 0) := by
    funext t
    by_cases h1 : t.symbol = s <;> by_cases hb : t.type = "buy" <;>
      by_cases hs : t.type = "sell" <;> simp [h1, hb, hs]
  rw [hfun]

theorem hUpdate_find_self (h : List (String × ℚ)) (s : String) (d : ℚ) :
    hFind (hUpdate h s d) s = some ((hFind h s).getD 0 + d) := by
  induction h with
  | nil => simp [hUpdate, hFind]
  | cons kv rest ih =>
    by_cases hk : kv.1 = s
    · simp [hUpdate, hFind, hk]
    · simp only [hUpdate, hk, if_neg]
      simpa [hFind, List.find?_cons, hk] using ih

theorem hUpdate_find_other (h : List (String × ℚ)) (s s' : String) (d : ℚ)
    (hne : s' ≠ s) : hFind (hUpdate h s d) s' = hFind h s' := by
  induction h with
  | nil => simp [hUpdate, hFind, hne.symm]
  | cons kv rest ih =>
    have hstep : hUpdate (kv :: rest) s d =
        if kv.1 = s then (kv.1, kv.2 + d) :: rest else kv :: hUpdate rest s d := rfl
    by_cases hk : kv.1 = s
    · have hks : kv.1 ≠ s' := fun hcon => hne (hcon.symm.trans hk)
      rw [hstep, if_pos hk]
      simp [hFind, List.find?_cons, hks]
    · rw [hstep, if_neg hk]
      by_cases hk' : kv.1 = s'
      · simp [hFind, List.find?_cons, hk']
      · simp only [hFind] at ih
        simp [hFind, List.find?_cons, hk', ih]

theorem hUpdate_keys (h : List (String × ℚ)) (s : String) (d : ℚ) :
    hKeys (hUpdate h s d) = if s ∈ hKeys h then hKeys h else hKeys h ++ [s] := by
  induction h with
  | nil => simp [hUpdate, hKeys]
  | cons kv rest ih =>
    by_cases hk : kv.1 = s
    · simp [hUpdate, hKeys, hk]
    · have hstep : hUpdate (kv :: rest) s d =
          if kv.1 = s then (kv.1, kv.2 + d) :: rest else kv :: hUpdate rest s d := rfl
      rw [hstep, if_neg hk]
      simp only [hKeys, List.map_cons] at ih ⊢
      by_cases hm : s ∈ List.map (fun kv => kv.1) rest
      · simp [List.mem_cons, Ne.symm hk, hm, ih]
      · simp [List.mem_cons, Ne.symm hk, hm, ih]

theorem hUpdate_nodup (h : List (String × ℚ)) (s : String) (d : ℚ)
    (hn : (hKeys h).Nodup) : (hKeys (hUpdate h s d)).Nodup := by
  rw [hUpdate_keys]
  by_cases hm : s ∈ hKeys h
  · simpa [hm] using hn
  · have hdisj : List.Disjoint (hKeys h) [s] := by
      intro a ha hs
      rw [List.mem_singleton] at hs
      exact hm (hs ▸ ha)
    simpa [hm] using List.Nodup.append hn (List.nodup_singleton s) hdisj

theorem hFind_isSome_iff_mem (h : List (String × ℚ)) (s : String) :
    (hFind h s).isSome = true ↔ s ∈ hKeys h := by
  induction h with
  | nil => simp [hFind, hKeys]
  | cons kv rest ih =>
    by_cases hk : kv.1 = s
    · simp [hFind, hKeys, List.find?_cons, hk]
    · simp only [hFind] at ih
      simp [hFind, hKeys, List.find?_cons, hk, Ne.symm hk, ih]

theorem hFind_of_mem_nodup (h : List (String × ℚ)) (kv : String × ℚ)
    (hn : (hKeys h).Nodup) (hm : kv ∈ h) : hFind h kv.1 = some kv.2 := by
  induction h with
  | nil => simp at hm
  | cons kv0 rest ih =>
    rcases List.mem_cons.mp hm with heq | htail
    · subst heq
      simp [hFind, List.find?_cons]
    · have hk : kv0.1 ≠ kv.1 := by
        intro hcon
        have : kv.1 ∈ hKeys rest := List.mem_map.mpr ⟨kv, htail, rfl⟩
        simp only [hKeys, List.map_cons, List.nodup_cons] at hn
        exact hn.1 (hcon ▸ this)
      have hn' : (hKeys rest).Nodup := by
        simp only [hKeys, List.map_cons, List.nodup_cons] at hn
        exact hn.2
      simpa [hFind, List.find?_cons, hk] using ih hn' htail

theorem foldl_applyDelta_getD (f : Transaction → Option ℚ)
    (ts : List Transaction) (h : List (String × ℚ)) (s : String) :
    (hFind (ts.foldl (applyDelta f) h) s).getD 0 =
      (hFind h s).getD 0 + deltaSum f ts s := by
  induction ts generalizing h with
  | nil => simp [deltaSum]
  | cons t ts ih =>
    simp only [List.foldl_cons]
    rw [ih]
    have hsum : deltaSum f (t :: ts) s =
        (if t.symbol = s then (f t).getD 0 else 0) + deltaSum f ts s := by
      simp [deltaSum]
    rw [hsum]
    have : (hFind (applyDelta f h t) s).getD 0 =
        (hFind h s).getD 0 + (if t.symbol = s then (f t).getD 0 else 0) := by
      unfold applyDelta
      cases hft : f t with
      | none => simp
      | some d =>
        by_cases hts : t.symbol = s
        · rw [hts, hUpdate_find_self]
          simp
        · rw [hUpdate_find_other _ _ _ _ (fun hcon => hts hcon.symm)]
          simp [hts]
    rw [this]
    ring

theorem foldl_applyDelta_mem (f : Transaction → Option ℚ)
    (ts : List Transaction) (h : List (String × ℚ)) (s : String) :
    s ∈ hKeys (ts.foldl (applyDelta f) h) ↔
      s ∈ hKeys h ∨ ∃ t ∈ ts, t.symbol = s ∧ (f t).isSome = true := by
  induction ts generalizing h with
  | nil => simp
  | cons t ts ih =>
    simp only [List.foldl_cons]
    rw [ih]
    constructor
    · rintro (hmem | hex)
      · unfold applyDelta at hmem
        cases hft : f t with
        | none => rw [hft] at hmem; exact Or.inl hmem
        | some d =>
          rw [hft, hUpdate_keys] at hmem
          by_cases hin : t.symbol ∈ hKeys h
          · rw [if_pos hin] at hmem; exact Or.inl hmem
          · rw [if_neg hin] at hmem
            rcases List.mem_append.mp hmem with hl | hr
            · exact Or.inl hl
            · rw [List.mem_singleton] at hr
              exact Or.inr ⟨t, List.mem_cons_self t ts, hr.symm, by simp [hft]⟩
      · exact Or.inr (by
          obtain ⟨t', ht', hsym, hsome⟩ := hex
          exact ⟨t', List.mem_cons_of_mem t ht', hsym, hsome⟩)
    · rintro (hmem | ⟨t', ht', hsym, hsome⟩)
      · left
        unfold applyDelta
        cases hft : f t with
        | none => exact hmem
        | some d =>
          rw [hUpdate_keys]
          by_cases hin : t.symbol ∈ hKeys h
          · rw [if_pos hin]; exact hmem
          · rw [if_neg hin]; exact List.mem_append_left _ hmem
      · rcases List.mem_cons.mp ht' with heq | htail
        · subst heq
          left
          unfold applyDelta
          cases hft : f t' with
          | none => rw [hft] at hsome; simp at hsome
          | some d =>
            rw [hUpdate_keys]
            by_cases hin : t'.symbol ∈ hKeys h
            · rw [if_pos hin]; exact hsym ▸ hin
            · rw [if_neg hin, ← hsym]
              exact List.mem_append_right _ (List.mem_singleton_self _)
        · exact Or.inr ⟨t', htail, hsym, hsome⟩

theorem foldl_applyDelta_nodup (f : Transaction → Option ℚ)
    (ts : List Transaction) (h : List (String × ℚ))
    (hn : (hKeys h).Nodup) : (hKeys (ts.foldl (applyDelta f) h)).Nodup := by
  induction ts generalizing h with
  | nil => simpa
  | cons t ts ih =>
    simp only [List.foldl_cons]
    apply ih
    unfold applyDelta
    cases f t with
    | none => exact hn
    | some d => exact hUpdate_nodup _ _ _ hn

theorem hFind_filter_pos (h : List (String × ℚ)) (s : String)
    (hn : (hKeys h).Nodup) :
    hFind (h.filter (fun kv => decide (0 < kv.2))) s =
      match hFind h s with
      | some q => if 0 < q then some q else none
      | none => none := by
  induction h with
  | nil => simp [hFind]
  | cons kv rest ih =>
    have hn' : (hKeys rest).Nodup := by
      simp only [hKeys, List.map_cons, List.nodup_cons] at hn
      exact hn.2
    by_cases hk : kv.1 = s
    · by_cases hq : 0 < kv.2
      · simp [hFind, List.filter_cons, hq, List.find?_cons, hk]
      · -- kv is dropped by the filter; s cannot occur later because keys are nodup
        have hnot : s ∉ hKeys rest := by
          simp only [hKeys, List.map_cons, List.nodup_cons] at hn
          exact fun hcon => hn.1 (hk ▸ hcon)
        have hnone : hFind rest s = none := by
          cases hfr : hFind rest s with
          | none => rfl
          | some q =>
            exact absurd ((hFind_isSome_iff_mem rest s).mp (by simp [hfr])) hnot
        have hfiltnone : hFind (rest.filter (fun kv => decide (0 < kv.2))) s = none := by
          rw [ih hn', hnone]
        simp [hFind, List.filter_cons, hq, List.find?_cons, hk] at hfiltnone ⊢
        simpa [hFind, hk] using hfiltnone
    · by_cases hq : 0 < kv.2
      · simpa [hFind, List.filter_cons, hq, List.find?_cons, hk] using ih hn'
      · simpa [hFind, List.filter_cons, hq, List.find?_cons, hk] using ih hn'

theorem netQty_zero_of_no_touch (ts : List Transaction) (s : String)
    (h : ∀ t ∈ ts, ¬(t.symbol = s ∧ (t.type = "buy" ∨ t.type = "sell"))) :
    netQty ts s = 0 := by
  unfold netQty
  apply List.sum_eq_zero
  intro q hq
  rcases List.mem_map.mp hq with ⟨t, ht, rfl⟩
  by_cases h1 : t.symbol = s
  · by_cases hb : t.type = "buy"
    · exact absurd ⟨h1, Or.inl hb⟩ (h t ht)
    · by_cases hs : t.type = "sell"
      · exact absurd ⟨h1, Or.inr hs⟩ (h t ht)
      · simp [h1, hb, hs]
  · simp [h1]

theorem netQty_perm (ts ts' : List Transaction) (s : String)
    (hp : ts.Perm ts') : netQty ts s = netQty ts' s :=
  List.Perm.sum_eq (hp.map _)

theorem sortTxs_perm (ts : List Transaction) : (sortTxs ts).Perm ts :=
  List.mergeSort_perm ts _

/-- Claim C2: calculate_portfolio_holdings maps each symbol to its buys
    minus sells over all transactions, this total is invariant under
    re-ordering into date order (stably sorted), and exactly the symbols
    with strictly positive resulting quantity are returned. -/
theorem c2_holdings_net_quantity (db : DB) (s : String) :
    (hFind (calculate_portfolio_holdings db) s =
      if 0 < netQty db.txs s then some (netQty db.txs s) else none)
    ∧ netQty db.txs s = netQty (sortTxs db.txs) s := by
  constructor
  · unfold calculate_portfolio_holdings
    rw [applyTxHold_eq_delta]
    have hnod := foldl_applyDelta_nodup holdDelta db.txs [] (by simp [hKeys])
    rw [hFind_filter_pos _ _ hnod]
    have hval := foldl_applyDelta_getD holdDelta db.txs [] s
    rw [deltaSum_holdDelta] at hval
    have h0 : (hFind [] s).getD 0 = 0 := rfl
    rw [h0, zero_add] at hval
    cases hfs : hFind (db.txs.foldl (applyDelta holdDelta) []) s with
    | none =>
      rw [hfs] at hval
      simp only [Option.getD_none] at hval
      rw [← hval]
      simp
    | some q =>
      rw [hfs] at hval
      simp only [Option.getD_some] at hval
      subst hval
      rfl
  · exact netQty_perm db.txs (sortTxs db.txs) s (sortTxs_perm db.txs).symm

/-! Equity-curve machinery (portfolio.py, calculate_equity_curve). -/

/-- Price lookup at an exact date (portfolio.py line 106): the first
    price_history row with the given symbol and date. The unique
    constraint on (asset_id, date) makes this the only such row. -/
def priceAt (ps : List PriceHistory) (s : String) (d : Nat) : Option ℚ :=
  (ps.find? (fun p => decide (p.symbol = s ∧ p.date = d))).map (fun p => p.close)

/-- Accumulator step realizing an ORDER BY date DESC ... first() query:
    keep the record with the strictly larger date. -/
def pickLatest (acc : Option PriceHistory) (p : PriceHistory) : Option PriceHistory :=
  match acc with
  | none => some p
  | some q => if q.date < p.date then some p else some q

/-- Most recent price strictly before a date (portfolio.py line 111). -/
def lastBefore (ps : List PriceHistory) (s : String) (d : Nat) : Option PriceHistory :=
  (ps.filter (fun p => decide (p.symbol = s ∧ p.date < d))).foldl pickLatest none

/-- The effective valuation price of a symbol at a date: the close at
    exactly the date, else the most recent close strictly before it,
    else 0 (the symbol then contributes nothing). -/
def locfPrice (ps : List PriceHistory) (s : String) (d : Nat) : ℚ :=
  match priceAt ps s d with
  | some c => c
  | none =>
    match lastBefore ps s d with
    | some p => p.close
    | none => 0

/-- Daily valuation loop of calculate_equity_curve (portfolio.py lines
    102-113): iterate the holdings dict, skip zero quantities, price by
    exact date, else by the most recent earlier date, else skip. -/
def dailyValue (ps : List PriceHistory) (h : List (String × ℚ)) (d : Nat) : ℚ :=
  h.foldl (fun (acc : ℚ) (kv : String × ℚ) =>
    if kv.2 = 0 then acc
    else
      match priceAt ps kv.1 d with
      | some c => acc + kv.2 * c
      | none =>
        match lastBefore ps kv.1 d with
        | some p => acc + kv.2 * p.close
        | none => acc) (0 : ℚ)

/-- An emitted equity-curve point; time is the axis date. -/
structure Point where
  time : Nat
  value : ℚ
deriving DecidableEq, Repr

/-- Main loop of calculate_equity_curve (portfolio.py lines 90-115):
    walk the axis dates, consume the maximal prefix of the remaining
    date-sorted transactions with date at most the axis date (the while
    loop), revalue, emit one point. -/
def ecLoop (ps : List PriceHistory) :
    List Nat → List Transaction → List (String × ℚ) → List Point
  | [], _, _ => []
  | d :: ds, rem, h =>
    let applied := rem.takeWhile (fun t => decide (t.date ≤ d))
    let rest := rem.dropWhile (fun t => decide (t.date ≤ d))
    let h2 := applied.foldl applyTxEC h
    { time := d, value := dailyValue ps h2 d } :: ecLoop ps ds rest h2

/-- The valuation date axis (portfolio.py lines 83-84): all distinct
    price-store dates at or after the start date, ascending. -/
def axisDates (ps : List PriceHistory) (startDate : Nat) : List Nat :=
  (((ps.map (fun p => p.date)).filter (fun d => decide (startDate ≤ d))).dedup).mergeSort
    (fun a b => decide (a ≤ b))

/-- calculate_equity_curve (portfolio.py lines 66-117). The computed
    end_date (line 80) is never used by the source, so it is omitted. -/
def calculate_equity_curve (db : DB) : List Point :=
  match sortTxs db.txs with
  | [] => []
  | t0 :: rest => ecLoop db.prices (axisDates db.prices t0.date) (t0 :: rest) []

/-- Claim-side valuation: the sum over the distinct symbols transacted
    up to the axis date of the running quantity times the carried-forward
    price, symbols with zero running quantity contributing 0. -/
def specValue (db : DB) (d : Nat) : ℚ :=
  ∑ s ∈ ((db.txs.filter (fun t => decide (t.date ≤ d))).map (fun t => t.symbol)).toFinset,
    (if netQty (db.txs.filter (fun t => decide (t.date ≤ d))) s = 0 then 0
     else netQty (db.txs.filter (fun t => decide (t.date ≤ d))) s * locfPrice db.prices s d)

theorem dailyValue_eq_sum (ps : List PriceHistory) (h : List (String × ℚ)) (d : Nat) :
    dailyValue ps h d = (h.map (fun kv => kv.2 * locfPrice ps kv.1 d)).sum := by
  have aux : ∀ (h : List (String × ℚ)) (acc : ℚ),
      h.foldl (fun (acc : ℚ) (kv : String × ℚ) =>
        if kv.2 = 0 then acc
        else
          match priceAt ps kv.1 d with
          | some c => acc + kv.2 * c
          | none =>
            match lastBefore ps kv.1 d with
            | some p => acc + kv.2 * p.close
            | none => acc) acc =
        acc + (h.map (fun kv => kv.2 * locfPrice ps kv.1 d)).sum := by
    intro h
    induction h with
    | nil => intro acc; simp
    | cons kv rest ih =>
      intro acc
      simp only [List.foldl_cons, List.map_cons, List.sum_cons]
      rw [ih]
      have hstep : (if kv.2 = 0 then acc
          else
            match priceAt ps kv.1 d with
            | some c => acc + kv.2 * c
            | none =>
              match lastBefore ps kv.1 d with
              | some p => acc + kv.2 * p.close
              | none => acc) = acc + kv.2 * locfPrice ps kv.1 d := by
        by_cases hz : kv.2 = 0
        · simp [hz]
        · rw [if_neg hz]
          unfold locfPrice
          cases hpa : priceAt ps kv.1 d with
          | some c => rfl
          | none =>
            cases hlb : lastBefore ps kv.1 d with
            | some p => rfl
            | none => simp
      rw [hstep]
      ring
  unfold dailyValue
  rw [aux h 0, zero_add]

theorem takeWhile_eq_filter_of_sorted (rem : List Transaction) (d : Nat)
    (hs : List.Pairwise (fun a b : Transaction => a.date ≤ b.date) rem) :
    rem.takeWhile (fun t => decide (t.date ≤ d)) =
      rem.filter (fun t => decide (t.date ≤ d)) := by
  induction rem with
  | nil => rfl
  | cons t rest ih =>
    rcases List.pairwise_cons.mp hs with ⟨hhead, htail⟩
    by_cases ht : t.date ≤ d
    · simp only [List.takeWhile_cons, List.filter_cons, ht, decide_True, if_true]
      rw [ih htail]
    · have hnone : rest.filter (fun t => decide (t.date ≤ d)) = [] := by
        rw [List.filter_eq_nil_iff]
        intro a ha
        simp only [decide_eq_true_eq]
        intro hcon
        exact ht (le_trans (hhead a ha) hcon)
      simp [List.takeWhile_cons, List.filter_cons, ht, hnone]

theorem ecLoop_times (ps : List PriceHistory) (ds : List Nat)
    (rem : List Transaction) (h : List (String × ℚ)) :
    (ecLoop ps ds rem h).map (fun pt => pt.time) = ds := by
  induction ds generalizing rem h with
  | nil => rfl
  | cons d ds ih => simp [ecLoop, ih]

theorem ecLoop_values (ps : List PriceHistory) (txs0 : List Transaction) :
    ∀ (ds : List Nat) (rem pre : List Transaction),
      txs0 = pre ++ rem →
      List.Pairwise (fun a b : Transaction => a.date ≤ b.date) rem →
      List.Pairwise (fun a b : Nat => a ≤ b) ds →
      (∀ t ∈ pre, ∀ d ∈ ds, t.date ≤ d) →
      ∀ pt ∈ ecLoop ps ds rem (pre.foldl applyTxEC []),
        pt.value = dailyValue ps
          ((txs0.filter (fun t => decide (t.date ≤ pt.time))).foldl applyTxEC [])
          pt.time := by
  intro ds
  induction ds with
  | nil => intro rem pre _ _ _ _ pt hpt; simp [ecLoop] at hpt
  | cons d ds ih =>
    intro rem pre hsplit hsrem hsds hpre pt hpt
    rcases List.pairwise_cons.mp hsds with ⟨hdle, hsds'⟩
    have happ : txs0.filter (fun t => decide (t.date ≤ d)) =
        pre ++ rem.takeWhile (fun t => decide (t.date ≤ d)) := by
      rw [hsplit, List.filter_append]
      rw [takeWhile_eq_filter_of_sorted rem d hsrem]
      congr 1
      rw [List.filter_eq_self]
      intro t ht
      simpa using hpre t ht d (List.mem_cons_self d ds)
    simp only [ecLoop] at hpt
    rcases List.mem_cons.mp hpt with hhead | htail
    · subst hhead
      simp only []
      rw [happ, List.foldl_append]
    · have hnext := ih (rem.dropWhile (fun t => decide (t.date ≤ d)))
        (pre ++ rem.takeWhile (fun t => decide (t.date ≤ d)))
        (by rw [hsplit, List.append_assoc, List.takeWhile_append_dropWhile])
        (List.Pairwise.sublist (List.dropWhile_sublist _) hsrem)
        hsds'
        (by
          intro t ht d' hd'
          rcases List.mem_append.mp ht with hl | hr
          · exact hpre t hl d' (List.mem_cons_of_mem d hd')
          · have h1 : t.date ≤ d := by
              simpa using List.mem_takeWhile_imp hr
            exact le_trans h1 (hdle d' hd'))
        pt
        (by
          rw [List.foldl_append]
          exact htail)
      exact hnext

theorem axis_sorted (ps : List PriceHistory) (start : Nat) :
    List.Pairwise (fun a b : Nat => a ≤ b) (axisDates ps start) := by
  have h := @List.sorted_mergeSort Nat (fun a b : Nat => decide (a ≤ b))
    (fun a b c hab hbc => by
      simp only [decide_eq_true_eq] at hab hbc ⊢
      exact le_trans hab hbc)
    (fun a b => by simpa using Nat.le_total a b)
    (((ps.map (fun p => p.date)).filter (fun d => decide (start ≤ d))).dedup)
  exact h.imp (by intro a b hab; simpa using hab)

theorem axis_nodup (ps : List PriceHistory) (start : Nat) :
    (axisDates ps start).Nodup := by
  have hperm : (axisDates ps start).Perm
      (((ps.map (fun p => p.date)).filter (fun d => decide (start ≤ d))).dedup) :=
    List.mergeSort_perm _ _
  exact hperm.nodup_iff.mpr (List.nodup_dedup _)

theorem axis_mem (ps : List PriceHistory) (start : Nat) (d : Nat) :
    d ∈ axisDates ps start ↔ d ∈ ps.map (fun p => p.date) ∧ start ≤ d := by
  have hperm : (axisDates ps start).Perm
      (((ps.map (fun p => p.date)).filter (fun d => decide (start ≤ d))).dedup) :=
    List.mergeSort_perm _ _
  rw [hperm.mem_iff, List.mem_dedup, List.mem_filter]
  simp

theorem axis_pairwise_lt (ps : List PriceHistory) (start : Nat) :
    List.Pairwise (fun a b : Nat => a < b) (axisDates ps start) := by
  have h1 := axis_sorted ps start
  have h2 : List.Pairwise (fun a b : Nat => a ≠ b) (axisDates ps start) :=
    axis_nodup ps start
  exact (h1.and h2).imp (fun hab => lt_of_le_of_ne hab.1 hab.2)

theorem priceAt_some (ps : List PriceHistory) (s : String) (d : Nat) (c : ℚ)
    (h : priceAt ps s d = some c) :
    ∃ p ∈ ps, p.symbol = s ∧ p.date = d ∧ p.close = c := by
  unfold priceAt at h
  cases hf : ps.find? (fun p => decide (p.symbol = s ∧ p.date = d)) with
  | none => rw [hf] at h; simp at h
  | some p =>
    rw [hf] at h
    have hpred := List.find?_some hf
    simp only [decide_eq_true_eq] at hpred
    have hmem := List.mem_of_find?_eq_some hf
    have hc : p.close = c := by simpa using h
    exact ⟨p, hmem, hpred.1, hpred.2, hc⟩

theorem priceAt_none (ps : List PriceHistory) (s : String) (d : Nat)
    (h : ∀ p ∈ ps, ¬(p.symbol = s ∧ p.date = d)) : priceAt ps s d = none := by
  unfold priceAt
  rw [List.find?_eq_none.mpr (by intro p hp; simpa using h p hp)]
  rfl

theorem priceAt_isSome (ps : List PriceHistory) (s : String) (d : Nat)
    (h : ∃ p ∈ ps, p.symbol = s ∧ p.date = d) : (priceAt ps s d).isSome = true := by
  unfold priceAt
  cases hf : ps.find? (fun p => decide (p.symbol = s ∧ p.date = d)) with
  | none =>
    exfalso
    obtain ⟨p, hp, h1, h2⟩ := h
    have := List.find?_eq_none.mp hf p hp
    simp [h1, h2] at this
  | some p => simp

theorem pickFold_spec (l : List PriceHistory) :
    ∀ (acc : Option PriceHistory) (p : PriceHistory),
      l.foldl pickLatest acc = some p →
      (acc = some p ∨ p ∈ l) ∧ (∀ q, acc = some q → q.date ≤ p.date) ∧
        (∀ q ∈ l, q.date ≤ p.date) := by
  induction l with
  | nil =>
    intro acc p h
    simp only [List.foldl_nil] at h
    exact ⟨Or.inl h, fun q hq => by rw [hq] at h; injection h with h; rw [h], by simp⟩
  | cons a l ih =>
    intro acc p h
    simp only [List.foldl_cons] at h
    obtain ⟨hmem, hacc, hall⟩ := ih (pickLatest acc a) p h
    have hstepmem : pickLatest acc a = some p → acc = some p ∨ p = a := by
      intro hs
      cases acc with
      | none =>
        simp only [pickLatest] at hs
        exact Or.inr (by injection hs with hs; rw [hs])
      | some q =>
        simp only [pickLatest] at hs
        by_cases hlt : q.date < a.date
        · rw [if_pos hlt] at hs
          exact Or.inr (by injection hs with hs; rw [hs])
        · rw [if_neg hlt] at hs
          exact Or.inl hs
    have hstepbound : ∀ r, pickLatest acc a = some r → a.date ≤ r.date := by
      intro r hr
      cases acc with
      | none =>
        simp only [pickLatest] at hr
        injection hr with hr
        rw [hr]
      | some q =>
        simp only [pickLatest] at hr
        by_cases hlt : q.date < a.date
        · rw [if_pos hlt] at hr
          injection hr with hr
          rw [hr]
        · rw [if_neg hlt] at hr
          injection hr with hr
          rw [← hr]
          exact le_of_not_gt hlt
    have hstepacc : ∀ q r, acc = some q → pickLatest acc a = some r → q.date ≤ r.date := by
      intro q r hq hr
      subst hq
      simp only [pickLatest] at hr
      by_cases hlt : q.date < a.date
      · rw [if_pos hlt] at hr
        injection hr with hr
        rw [← hr]
        exact le_of_lt hlt
      · rw [if_neg hlt] at hr
        injection hr with hr
        rw [hr]
    have hsome : ∃ r, pickLatest acc a = some r := by
      cases acc with
      | none => exact ⟨a, rfl⟩
      | some q =>
        simp only [pickLatest]
        by_cases hlt : q.date < a.date
        · exact ⟨a, if_pos hlt⟩
        · exact ⟨q, if_neg hlt⟩
    obtain ⟨r, hr⟩ := hsome
    refine ⟨?_, ?_, ?_⟩
    · rcases hmem with hm | hm
      · rcases hstepmem hm with h1 | h1
        · exact Or.inl h1
        · exact Or.inr (h1 ▸ List.mem_cons_self a l)
      · exact Or.inr (List.mem_cons_of_mem a hm)
    · intro q hq
      exact le_trans (hstepacc q r hq hr) (hacc r hr)
    · intro q hq
      rcases List.mem_cons.mp hq with h1 | h1
      · subst h1
        exact le_trans (hstepbound r hr) (hacc r hr)
      · exact hall q h1

theorem pickFold_none (l : List PriceHistory) :
    ∀ acc, l.foldl pickLatest acc = none → acc = none ∧ l = [] := by
  induction l with
  | nil => intro acc h; exact ⟨h, rfl⟩
  | cons a l ih =>
    intro acc h
    simp only [List.foldl_cons] at h
    obtain ⟨hstep, _⟩ := ih (pickLatest acc a) h
    exfalso
    cases acc with
    | none => simp [pickLatest] at hstep
    | some q =>
      simp only [pickLatest] at hstep
      by_cases hlt : q.date < a.date
      · rw [if_pos hlt] at hstep; exact Option.noConfusion hstep
      · rw [if_neg hlt] at hstep; exact Option.noConfusion hstep

theorem lastBefore_some (ps : List PriceHistory) (s : String) (d : Nat)
    (p : PriceHistory) (h : lastBefore ps s d = some p) :
    p ∈ ps ∧ p.symbol = s ∧ p.date < d ∧
      ∀ q ∈ ps, q.symbol = s → q.date < d → q.date ≤ p.date := by
  unfold lastBefore at h
  obtain ⟨hmem, _, hall⟩ := pickFold_spec _ none p h
  rcases hmem with hm | hm
  · exact absurd hm (by simp)
  · rw [List.mem_filter] at hm
    obtain ⟨hps, hpred⟩ := hm
    simp only [decide_eq_true_eq] at hpred
    refine ⟨hps, hpred.1, hpred.2, ?_⟩
    intro q hq h1 h2
    exact hall q (List.mem_filter.mpr ⟨hq, by simp [h1, h2]⟩)

theorem lastBefore_none (ps : List PriceHistory) (s : String) (d : Nat)
    (h : lastBefore ps s d = none) :
    ∀ q ∈ ps, ¬(q.symbol = s ∧ q.date < d) := by
  unfold lastBefore at h
  obtain ⟨_, hnil⟩ := pickFold_none _ none h
  intro q hq hcon
  have : q ∈ ps.filter (fun p => decide (p.symbol = s ∧ p.date < d)) :=
    List.mem_filter.mpr ⟨hq, by simp [hcon.1, hcon.2]⟩
  rw [hnil] at this
  simp at this

theorem lastBefore_isSome (ps : List PriceHistory) (s : String) (d : Nat)
    (h : ∃ p ∈ ps, p.symbol = s ∧ p.date < d) : ∃ p, lastBefore ps s d = some p := by
  cases hl : lastBefore ps s d with
  | none =>
    obtain ⟨p, hp, h1, h2⟩ := h
    exact absurd ⟨h1, h2⟩ (lastBefore_none ps s d hl p hp)
  | some p => exact ⟨p, rfl⟩

theorem ecDelta_isSome (t : Transaction) : (ecDelta t).isSome = true := by
  unfold ecDelta
  by_cases hb : t.type = "buy" <;> simp [hb]

theorem deltaSum_ecDelta (ts : List Transaction) (s : String)
    (h : ∀ t ∈ ts, t.type = "buy" ∨ t.type = "sell") :
    deltaSum ecDelta ts s = netQty ts s := by
  unfold deltaSum netQty
  congr 1
  apply List.map_congr_left
  intro t ht
  rcases h t ht with hb | hs
  · simp [ecDelta, hb]
  · have hnb : t.type ≠ "buy" := by rw [hs]; decide
    simp [ecDelta, hs, hnb]

theorem dailyValue_nodup_sum (ps : List PriceHistory) (h : List (String × ℚ))
    (d : Nat) (hn : (hKeys h).Nodup) :
    dailyValue ps h d =
      ∑ s ∈ (hKeys h).toFinset, (hFind h s).getD 0 * locfPrice ps s d := by
  rw [dailyValue_eq_sum]
  rw [List.sum_toFinset _ hn]
  have h1 : h.map (fun kv => kv.2 * locfPrice ps kv.1 d) =
      h.map (fun kv => (hFind h kv.1).getD 0 * locfPrice ps kv.1 d) := by
    apply List.map_congr_left
    intro kv hkv
    rw [hFind_of_mem_nodup h kv hn hkv]
    rfl
  rw [h1]
  have h2 : (hKeys h).map (fun s => (hFind h s).getD 0 * locfPrice ps s d) =
      h.map (fun kv => (hFind h kv.1).getD 0 * locfPrice ps kv.1 d) := by
    unfold hKeys
    rw [List.map_map]
    rfl
  rw [h2]

theorem sortTxs_sorted (ts : List Transaction) :
    List.Pairwise (fun a b : Transaction => a.date ≤ b.date) (sortTxs ts) := by
  have h := @List.sorted_mergeSort Transaction
    (fun a b : Transaction => decide (a.date ≤ b.date))
    (fun a b c hab hbc => by
      simp only [decide_eq_true_eq] at hab hbc ⊢
      exact le_trans hab hbc)
    (fun a b => by simpa using Nat.le_total a.date b.date)
    ts
  exact h.imp (by intro a b hab; simpa using hab)

/-- Claim C1: each equity-curve point values the portfolio as the sum,
    over the symbols transacted up to its date, of the running quantity
    (nonzero ones) times the carried-forward price; and the effective
    price is the close at exactly the date when such a record exists,
    else the close of the most recent record strictly before the date,
    else 0. -/
theorem c1_equity_curve_locf_value (db : DB)
    (htypes : ∀ t ∈ db.txs, t.type = "buy" ∨ t.type = "sell") :
    (∀ pt ∈ calculate_equity_curve db, pt.value = specValue db pt.time)
    ∧ (∀ s d, (∃ p ∈ db.prices, p.symbol = s ∧ p.date = d) →
        ∃ p ∈ db.prices, p.symbol = s ∧ p.date = d ∧ locfPrice db.prices s d = p.close)
    ∧ (∀ s d, (¬ ∃ p ∈ db.prices, p.symbol = s ∧ p.date = d) →
        (∃ p ∈ db.prices, p.symbol = s ∧ p.date < d) →
        ∃ p ∈ db.prices, p.symbol = s ∧ p.date < d ∧ locfPrice db.prices s d = p.close ∧
          ∀ q ∈ db.prices, q.symbol = s → q.date < d → q.date ≤ p.date)
    ∧ (∀ s d, (¬ ∃ p ∈ db.prices, p.symbol = s ∧ p.date = d) →
        (¬ ∃ p ∈ db.prices, p.symbol = s ∧ p.date < d) →
        locfPrice db.prices s d = 0) := by
  refine ⟨?_, ?_, ?_, ?_⟩
  · intro pt hpt
    unfold calculate_equity_curve at hpt
    rcases hs0 : sortTxs db.txs with _ | ⟨t0, rest⟩
    · rw [hs0] at hpt
      simp at hpt
    · rw [hs0] at hpt
      have hsortrem : List.Pairwise (fun a b : Transaction => a.date ≤ b.date)
          (t0 :: rest) := hs0 ▸ sortTxs_sorted db.txs
      have hval := ecLoop_values db.prices (t0 :: rest)
        (axisDates db.prices t0.date) (t0 :: rest) [] (by simp) hsortrem
        (axis_sorted db.prices t0.date) (by simp) pt hpt
      rw [hval]
      -- abbreviations for the applied transaction prefixes
      have hpermS : ((t0 :: rest).filter (fun t => decide (t.date ≤ pt.time))).Perm
          (db.txs.filter (fun t => decide (t.date ≤ pt.time))) := by
        rw [← hs0]
        exact (sortTxs_perm db.txs).filter _
      have htypesS : ∀ t ∈ (t0 :: rest).filter (fun t => decide (t.date ≤ pt.time)),
          t.type = "buy" ∨ t.type = "sell" := by
        intro t ht
        have h1 : t ∈ (t0 :: rest) := (List.mem_filter.mp ht).1
        have h2 : t ∈ db.txs := (hs0 ▸ sortTxs_perm db.txs).mem_iff.mp h1
        exact htypes t h2
      rw [applyTxEC_eq_delta]
      have hnodup := foldl_applyDelta_nodup ecDelta
        ((t0 :: rest).filter (fun t => decide (t.date ≤ pt.time))) []
        (by simp [hKeys])
      rw [dailyValue_nodup_sum _ _ _ hnodup]
      unfold specValue
      apply Finset.sum_congr
      · ext s
        simp only [List.mem_toFinset]
        rw [foldl_applyDelta_mem ecDelta _ [] s]
        constructor
        · rintro (habs | ⟨t, ht, hsym, _⟩)
          · simp [hKeys] at habs
          · exact List.mem_map.mpr ⟨t, hpermS.subset ht, hsym⟩
        · intro hmem
          obtain ⟨t, ht, hsym⟩ := List.mem_map.mp hmem
          exact Or.inr ⟨t, hpermS.symm.subset ht, hsym, ecDelta_isSome t⟩
      · intro s _
        have hgetd := foldl_applyDelta_getD ecDelta
          ((t0 :: rest).filter (fun t => decide (t.date ≤ pt.time))) [] s
        have hbase : (hFind [] s).getD 0 = 0 := rfl
        rw [hbase, zero_add] at hgetd
        rw [hgetd, deltaSum_ecDelta _ _ htypesS, netQty_perm _ _ s hpermS]
        by_cases hz : netQty (db.txs.filter (fun t => decide (t.date ≤ pt.time))) s = 0
        · rw [hz, if_pos rfl, zero_mul]
        · rw [if_neg hz]
  · intro s d hex
    have hsome := priceAt_isSome db.prices s d hex
    obtain ⟨c, hc⟩ := Option.isSome_iff_exists.mp hsome
    obtain ⟨p, hp, h1, h2, h3⟩ := priceAt_some db.prices s d c hc
    refine ⟨p, hp, h1, h2, ?_⟩
    unfold locfPrice
    rw [hc, h3]
  · intro s d hnex hbefore
    have hpa : priceAt db.prices s d = none :=
      priceAt_none db.prices s d (fun p hp hcon => hnex ⟨p, hp, hcon⟩)
    obtain ⟨p, hlb⟩ := lastBefore_isSome db.prices s d hbefore
    obtain ⟨hmem, h1, h2, h3⟩ := lastBefore_some db.prices s d p hlb
    refine ⟨p, hmem, h1, h2, ?_, h3⟩
    unfold locfPrice
    rw [hpa, hlb]
  · intro s d hnex hnbefore
    have hpa : priceAt db.prices s d = none :=
      priceAt_none db.prices s d (fun p hp hcon => hnex ⟨p, hp, hcon⟩)
    have hlb : lastBefore db.prices s d = none := by
      cases hl : lastBefore db.prices s d with
      | none => rfl
      | some p =>
        obtain ⟨hmem, h1, h2, _⟩ := lastBefore_some db.prices s d p hl
        exact absurd ⟨p, hmem, h1, h2⟩ hnbefore
    unfold locfPrice
    rw [hpa, hlb]

/-- Start of the valuation date axis: the date of the first transaction
    in date order (portfolio.py line 79). -/
def firstTxDate (db : DB) : Nat :=
  match sortTxs db.txs with
  | [] => 0
  | t0 :: _ => t0.date

/-- Claim C6: with no transactions the equity curve is empty; otherwise
    it emits exactly one point per distinct price-store date at or after
    the earliest transaction date, in strictly ascending order, and no
    other dates (in particular transaction dates absent from the price
    store add no axis point). -/
theorem c6_equity_curve_axis (db : DB) :
    (db.txs = [] → calculate_equity_curve db = [])
    ∧ (db.txs ≠ [] →
        (∃ t ∈ db.txs, t.date = firstTxDate db)
        ∧ (∀ t ∈ db.txs, firstTxDate db ≤ t.date)
        ∧ List.Pairwise (fun a b : Nat => a < b)
            ((calculate_equity_curve db).map (fun pt => pt.time))
        ∧ ∀ d, d ∈ (calculate_equity_curve db).map (fun pt => pt.time) ↔
            (d ∈ db.prices.map (fun p => p.date) ∧ firstTxDate db ≤ d)) := by
  constructor
  · intro h
    unfold calculate_equity_curve
    have hs : sortTxs db.txs = [] := by rw [h]; simp [sortTxs]
    rw [hs]
  · intro hne
    rcases hs0 : sortTxs db.txs with _ | ⟨t0, rest⟩
    · exfalso
      apply hne
      have hp : db.txs.Perm [] := by
        have h2 := (sortTxs_perm db.txs).symm
        rw [hs0] at h2
        exact h2
      exact hp.eq_nil
    · have hfd : firstTxDate db = t0.date := by
        unfold firstTxDate
        rw [hs0]
      have hcalc : calculate_equity_curve db =
          ecLoop db.prices (axisDates db.prices t0.date) (t0 :: rest) [] := by
        unfold calculate_equity_curve
        rw [hs0]
      have htimes : (calculate_equity_curve db).map (fun pt => pt.time) =
          axisDates db.prices t0.date := by
        rw [hcalc, ecLoop_times]
      refine ⟨?_, ?_, ?_, ?_⟩
      · refine ⟨t0, ?_, hfd.symm⟩
        have : t0 ∈ sortTxs db.txs := by rw [hs0]; exact List.mem_cons_self _ _
        exact (sortTxs_perm db.txs).subset this
      · intro t ht
        have hts : t ∈ sortTxs db.txs := (sortTxs_perm db.txs).symm.subset ht
        rw [hs0] at hts
        rw [hfd]
        rcases List.mem_cons.mp hts with heq | htail
        · rw [heq]
        · have hsorted := sortTxs_sorted db.txs
          rw [hs0] at hsorted
          exact (List.pairwise_cons.mp hsorted).1 t htail
      · rw [htimes]
        exact axis_pairwise_lt db.prices t0.date
      · intro d
        rw [htimes, hfd]
        exact axis_mem db.prices t0.date d

theorem option_eq_of_parts (o1 o2 : Option ℚ)
    (h1 : o1.isSome = o2.isSome) (h2 : o1.getD 0 = o2.getD 0) : o1 = o2 := by
  cases o1 <;> cases o2 <;> simp_all

/-- Claim C10: on logs whose types are all buy or sell, the running map
    kept by calculate_equity_curve (after all transactions) agrees with
    the unfiltered buy-minus-sell map of calculate_portfolio_holdings;
    on any other type the two step functions diverge: the equity curve
    subtracts the quantity while the holdings fold ignores the row. -/
theorem c10_holdings_refinement :
    (∀ ts : List Transaction, (∀ t ∈ ts, t.type = "buy" ∨ t.type = "sell") →
      ∀ s, hFind ((sortTxs ts).foldl applyTxEC []) s =
        hFind (ts.foldl applyTxHold []) s)
    ∧ (∀ (h : List (String × ℚ)) (t : Transaction),
        t.type ≠ "buy" → t.type ≠ "sell" →
        applyTxEC h t = hUpdate h t.symbol (-t.quantity) ∧ applyTxHold h t = h) := by
  constructor
  · intro ts htypes s
    rw [applyTxEC_eq_delta, applyTxHold_eq_delta]
    have htypesS : ∀ t ∈ sortTxs ts, t.type = "buy" ∨ t.type = "sell" :=
      fun t ht => htypes t ((sortTxs_perm ts).subset ht)
    have hLmem : (hFind ((sortTxs ts).foldl (applyDelta ecDelta) []) s).isSome = true ↔
        ∃ t ∈ ts, t.symbol = s := by
      rw [hFind_isSome_iff_mem, foldl_applyDelta_mem]
      simp only [hKeys, List.map_nil, List.not_mem_nil, false_or]
      constructor
      · rintro ⟨t, ht, hsym, _⟩
        exact ⟨t, (sortTxs_perm ts).subset ht, hsym⟩
      · rintro ⟨t, ht, hsym⟩
        exact ⟨t, (sortTxs_perm ts).symm.subset ht, hsym, ecDelta_isSome t⟩
    have hRmem : (hFind (ts.foldl (applyDelta holdDelta) []) s).isSome = true ↔
        ∃ t ∈ ts, t.symbol = s := by
      rw [hFind_isSome_iff_mem, foldl_applyDelta_mem]
      simp only [hKeys, List.map_nil, List.not_mem_nil, false_or]
      constructor
      · rintro ⟨t, ht, hsym, _⟩
        exact ⟨t, ht, hsym⟩
      · rintro ⟨t, ht, hsym⟩
        refine ⟨t, ht, hsym, ?_⟩
        rcases htypes t ht with hb | hsell
        · simp [holdDelta, hb]
        · have hnb : t.type ≠ "buy" := by rw [hsell]; decide
          simp [holdDelta, hsell, hnb]
    have hiff : (hFind ((sortTxs ts).foldl (applyDelta ecDelta) []) s).isSome = true ↔
        (hFind (ts.foldl (applyDelta holdDelta) []) s).isSome = true :=
      hLmem.trans hRmem.symm
    apply option_eq_of_parts
    · cases hA : (hFind ((sortTxs ts).foldl (applyDelta ecDelta) []) s).isSome with
      | false =>
        cases hB : (hFind (ts.foldl (applyDelta holdDelta) []) s).isSome with
        | false => rfl
        | true =>
          have hcon := hiff.mpr hB
          rw [hA] at hcon
          exact absurd hcon (by simp)
      | true =>
        have hcon := hiff.mp hA
        rw [hcon]
    · rw [foldl_applyDelta_getD, foldl_applyDelta_getD]
      have hbase : (hFind [] s).getD 0 = 0 := rfl
      rw [hbase]
      rw [deltaSum_ecDelta _ _ htypesS, deltaSum_holdDelta,
        netQty_perm _ _ s (sortTxs_perm ts)]
  · intro h t hnb hns
    constructor
    · simp [applyTxEC, hnb]
    · simp [applyTxHold, hnb, hns]

theorem c10_holdings_refinement_witness :
    (hFind ((sortTxs [⟨"X", 1, "buy", 5, 10, 0⟩]).foldl applyTxEC []) "X" =
      hFind ([⟨"X", 1, "buy", 5, 10, 0⟩].foldl applyTxHold []) "X")
    ∧ applyTxEC [] ⟨"X", 1, "dividend", 3, 10, 0⟩ = hUpdate [] "X" (-3)
    ∧ applyTxHold [] ⟨"X", 1, "dividend", 3, 10, 0⟩ = [] :=
  ⟨c10_holdings_refinement.1 [⟨"X", 1, "buy", 5, 10, 0⟩] (by decide) "X",
   (c10_holdings_refinement.2 [] ⟨"X", 1, "dividend", 3, 10, 0⟩
      (by decide) (by decide)).1,
   (c10_holdings_refinement.2 [] ⟨"X", 1, "dividend", 3, 10, 0⟩
      (by decide) (by decide)).2⟩

/-! Allocation snapshot (portfolio.py, get_portfolio_allocation). -/

/-- Python truthiness test `not s` for a nullable string column:
    true when the value is NULL or the empty string. -/
def pyFalsyOptStr (o : Option String) : Bool :=
  match o with
  | none => true
  | some s => s.data.isEmpty

/-- The combined check `not name or not name.strip()`: missing when the
    value is NULL, empty, or whitespace only (strip removes surrounding
    whitespace, so it yields the empty string exactly when every
    character is whitespace). -/
def nameMissing (o : Option String) : Bool :=
  match o with
  | none => true
  | some s => s.data.all (fun c => c.isWhitespace)

/-- Latest price record of a symbol, by date descending (portfolio.py
    line 42). -/
def latestRec (ps : List PriceHistory) (s : String) : Option PriceHistory :=
  (ps.filter (fun p => decide (p.symbol = s))).foldl pickLatest none

/-- One entry of the allocation items list (portfolio.py lines 52-58
    and 61-62). -/
structure AllocationItem where
  symbol : String
  name : String
  quantity : ℚ
  price : ℚ
  value : ℚ
  percentage : ℚ
deriving DecidableEq, Repr

/-- Loop body of get_portfolio_allocation (portfolio.py lines 36-58):
    skip symbols with no asset row entirely; accumulate value into the
    total for every found asset; append an item only when the asset has
    a usable name. -/
def allocStep (db : DB) (acc : List AllocationItem × ℚ) (kv : String × ℚ) :
    List AllocationItem × ℚ :=
  match db.assets.find? (fun a => decide (a.symbol = kv.1)) with
  | none => acc
  | some asset =>
    let price : ℚ :=
      match latestRec db.prices kv.1 with
      | some p => p.close
      | none => 0
    let value := kv.2 * price
    if nameMissing asset.name then (acc.1, acc.2 + value)
    else (acc.1 ++ [⟨kv.1, asset.name.getD "", kv.2, price, value, 0⟩], acc.2 + value)

/-- get_portfolio_allocation (portfolio.py lines 23-64): empty holdings
    short-circuit, the accumulation loop, then the percentage pass. -/
def get_portfolio_allocation (db : DB) : List AllocationItem × ℚ :=
  let holdings := calculate_portfolio_holdings db
  if holdings.isEmpty then ([], 0)
  else
    let res := holdings.foldl (allocStep db) ([], 0)
    (res.1.map (fun it =>
      { it with percentage := if 0 < res.2 then it.value / res.2 * 100 else 0 }),
     res.2)

/-- The value a held position contributes to total_value: zero when no
    asset row exists (the row is skipped), else quantity times the
    latest close (or 0 with no price history). -/
def heldValue (db : DB) (kv : String × ℚ) : ℚ :=
  match db.assets.find? (fun a => decide (a.symbol = kv.1)) with
  | none => 0
  | some _ =>
    kv.2 * (match latestRec db.prices kv.1 with
      | some p => p.close
      | none => 0)

/-- Whether the holding resolves to an asset row with a usable name. -/
def foundNamed (db : DB) (s : String) : Bool :=
  match db.assets.find? (fun a => decide (a.symbol = s)) with
  | none => false
  | some a => !nameMissing a.name

/-- The value a held position contributes to the items list. -/
def namedHeldValue (db : DB) (kv : String × ℚ) : ℚ :=
  if foundNamed db kv.1 then heldValue db kv else 0

/-- The item the loop appends for a holding, when it appends one. -/
def mkAllocItem (db : DB) (kv : String × ℚ) : Option AllocationItem :=
  match db.assets.find? (fun a => decide (a.symbol = kv.1)) with
  | none => none
  | some asset =>
    if nameMissing asset.name then none
    else some ⟨kv.1, asset.name.getD "", kv.2,
      (match latestRec db.prices kv.1 with | some p => p.close | none => 0),
      kv.2 * (match latestRec db.prices kv.1 with | some p => p.close | none => 0), 0⟩

theorem allocFold_total (db : DB) (hs : List (String × ℚ)) :
    ∀ acc, (hs.foldl (allocStep db) acc).2 = acc.2 + (hs.map (heldValue db)).sum := by
  induction hs with
  | nil => intro acc; simp
  | cons kv rest ih =>
    intro acc
    simp only [List.foldl_cons, List.map_cons, List.sum_cons]
    rw [ih]
    unfold allocStep heldValue
    cases hf : db.assets.find? (fun a => decide (a.symbol = kv.1)) with
    | none => simp
    | some asset =>
      cases hn : nameMissing asset.name with
      | true =>
        simp only [hn, if_true]
        ring
      | false =>
        simp only [hn, Bool.false_eq_true, if_false]
        ring

theorem allocFold_items (db : DB) (hs : List (String × ℚ)) :
    ∀ acc, (hs.foldl (allocStep db) acc).1 = acc.1 ++ hs.filterMap (mkAllocItem db) := by
  induction hs with
  | nil => intro acc; simp
  | cons kv rest ih =>
    intro acc
    simp only [List.foldl_cons, List.filterMap_cons]
    rw [ih]
    unfold allocStep mkAllocItem
    cases hf : db.assets.find? (fun a => decide (a.symbol = kv.1)) with
    | none => simp
    | some asset =>
      cases hn : nameMissing asset.name with
      | true => simp [hn]
      | false => simp [hn]

theorem allocItems_value_sum (db : DB) (hs : List (String × ℚ)) :
    ((hs.filterMap (mkAllocItem db)).map (fun it => it.value)).sum =
      (hs.map (namedHeldValue db)).sum := by
  induction hs with
  | nil => rfl
  | cons kv rest ih =>
    simp only [List.filterMap_cons]
    cases hmk : mkAllocItem db kv with
    | none =>
      have hnv : namedHeldValue db kv = 0 := by
        unfold mkAllocItem at hmk
        unfold namedHeldValue foundNamed
        cases hf : db.assets.find? (fun a => decide (a.symbol = kv.1)) with
        | none => simp
        | some asset =>
          simp only [hf] at hmk
          cases hn : nameMissing asset.name with
          | true => simp [hn]
          | false => simp only [hn] at hmk; simp at hmk
      simp only [List.map_cons, List.sum_cons, hnv, zero_add, ih]
    | some item =>
      have hnv : namedHeldValue db kv = item.value := by
        unfold mkAllocItem at hmk
        unfold namedHeldValue foundNamed heldValue
        cases hf : db.assets.find? (fun a => decide (a.symbol = kv.1)) with
        | none => simp only [hf] at hmk; simp at hmk
        | some asset =>
          simp only [hf] at hmk
          cases hn : nameMissing asset.name with
          | true => simp only [hn] at hmk; simp at hmk
          | false =>
            simp only [hn, Bool.false_eq_true, if_false, Option.some_inj] at hmk
            rw [← hmk]
            simp [hf, hn]
      simp only [List.map_cons, List.sum_cons, hnv, ih]

theorem sum_map_div_mul (l : List ℚ) (T : ℚ) :
    (l.map (fun v => v / T * 100)).sum = l.sum / T * 100 := by
  induction l with
  | nil => simp
  | cons v rest ih =>
    simp only [List.map_cons, List.sum_cons]
    rw [ih]
    ring

/-- Claim C3 (amended): total_value is the sum of the held values of
    every position with an asset row, including those skipped from the
    items list for a missing name; the item values sum to the named
    positions only; percentages sum to 100 scaled by the named share;
    when every held position resolves to a named asset, total_value
    equals the item value sum and the percentages sum to exactly 100. -/
theorem c3_allocation_totals_amended (db : DB) :
    ((get_portfolio_allocation db).2 =
        ((calculate_portfolio_holdings db).map (heldValue db)).sum)
    ∧ (((get_portfolio_allocation db).1.map (fun it => it.value)).sum =
        ((calculate_portfolio_holdings db).map (namedHeldValue db)).sum)
    ∧ (0 < (get_portfolio_allocation db).2 →
        ((get_portfolio_allocation db).1.map (fun it => it.percentage)).sum =
          ((get_portfolio_allocation db).1.map (fun it => it.value)).sum /
            (get_portfolio_allocation db).2 * 100)
    ∧ ((∀ kv ∈ calculate_portfolio_holdings db, foundNamed db kv.1 = true) →
        ((get_portfolio_allocation db).2 =
          ((get_portfolio_allocation db).1.map (fun it => it.value)).sum)
        ∧ (0 < (get_portfolio_allocation db).2 →
            ((get_portfolio_allocation db).1.map (fun it => it.percentage)).sum = 100)) := by
  by_cases hemp : (calculate_portfolio_holdings db).isEmpty
  · have hnil : calculate_portfolio_holdings db = [] := by
      cases hh : calculate_portfolio_holdings db with
      | nil => rfl
      | cons a l => rw [hh] at hemp; simp [List.isEmpty] at hemp
    have halloc : get_portfolio_allocation db = ([], 0) := by
      unfold get_portfolio_allocation
      simp [hemp]
    rw [halloc, hnil]
    refine ⟨by simp, by simp, by simp, fun _ => ⟨by simp, by simp⟩⟩
  · have halloc : get_portfolio_allocation db =
        (((calculate_portfolio_holdings db).foldl (allocStep db) ([], 0)).1.map
          (fun it => { it with percentage :=
            if 0 < ((calculate_portfolio_holdings db).foldl (allocStep db) ([], 0)).2
            then it.value /
              ((calculate_portfolio_holdings db).foldl (allocStep db) ([], 0)).2 * 100
            else 0 }),
         ((calculate_portfolio_holdings db).foldl (allocStep db) ([], 0)).2) := by
      unfold get_portfolio_allocation
      simp [hemp]
    have htot : ((calculate_portfolio_holdings db).foldl (allocStep db) ([], 0)).2 =
        ((calculate_portfolio_holdings db).map (heldValue db)).sum := by
      rw [allocFold_total]
      simp
    have hitems : ((calculate_portfolio_holdings db).foldl (allocStep db) ([], 0)).1 =
        (calculate_portfolio_holdings db).filterMap (mkAllocItem db) := by
      rw [allocFold_items]
      simp
    have hvalmap : ((get_portfolio_allocation db).1.map (fun it => it.value)) =
        (((calculate_portfolio_holdings db).foldl (allocStep db) ([], 0)).1.map
          (fun it => it.value)) := by
      rw [halloc]
      simp only [List.map_map]
      rfl
    have hval : ((get_portfolio_allocation db).1.map (fun it => it.value)).sum =
        ((calculate_portfolio_holdings db).map (namedHeldValue db)).sum := by
      rw [hvalmap, hitems, allocItems_value_sum]
    have htot2 : (get_portfolio_allocation db).2 =
        ((calculate_portfolio_holdings db).map (heldValue db)).sum := by
      rw [halloc]
      exact htot
    refine ⟨htot2, hval, ?_, ?_⟩
    · intro hpos
      have hperc : ((get_portfolio_allocation db).1.map (fun it => it.percentage)) =
          (((calculate_portfolio_holdings db).foldl (allocStep db) ([], 0)).1.map
            (fun it => it.value)).map
            (fun v => v / (get_portfolio_allocation db).2 * 100) := by
        rw [halloc]
        simp only [List.map_map]
        apply List.map_congr_left
        intro it _
        have hpos2 : 0 < ((calculate_portfolio_holdings db).foldl (allocStep db) ([], 0)).2 := by
          rw [halloc] at hpos
          exact hpos
        simp only [Function.comp]
        rw [if_pos hpos2]
      rw [hperc, sum_map_div_mul, ← hvalmap]
    · intro hnamed
      have hsame : ((calculate_portfolio_holdings db).map (namedHeldValue db)).sum =
          ((calculate_portfolio_holdings db).map (heldValue db)).sum := by
        congr 1
        apply List.map_congr_left
        intro kv hkv
        unfold namedHeldValue
        rw [hnamed kv hkv, if_pos rfl]
      have htoteq : (get_portfolio_allocation db).2 =
          ((get_portfolio_allocation db).1.map (fun it => it.value)).sum := by
        rw [htot2, hval, hsame]
      refine ⟨htoteq, ?_⟩
      intro hpos
      have hperc : ((get_portfolio_allocation db).1.map (fun it => it.percentage)) =
          (((calculate_portfolio_holdings db).foldl (allocStep db) ([], 0)).1.map
            (fun it => it.value)).map
            (fun v => v / (get_portfolio_allocation db).2 * 100) := by
        rw [halloc]
        simp only [List.map_map]
        apply List.map_congr_left
        intro it _
        have hpos2 : 0 < ((calculate_portfolio_holdings db).foldl (allocStep db) ([], 0)).2 := by
          rw [halloc] at hpos
          exact hpos
        simp only [Function.comp]
        rw [if_pos hpos2]
      rw [hperc, sum_map_div_mul, ← hvalmap, ← htoteq]
      rw [div_self (ne_of_gt hpos), one_mul]


/-- A database with one named and one blank-named held asset: the
    blank-named one is skipped from the items but still counted in the
    total. -/
def dbC3 : DB :=
  ⟨[⟨"A", some "Alpha", "stock"⟩, ⟨"B", some " ", "stock"⟩],
   [⟨"A", 1, "buy", 1, 10, 0⟩, ⟨"B", 1, "buy", 1, 5, 0⟩],
   [⟨"A", 1, 10⟩, ⟨"B", 1, 5⟩]⟩

/-- Claim C3 as stated is false on dbC3: total_value is 15 but the item
    values sum to 10, and the percentages sum to 200/3, not 100. -/
theorem c3_total_vs_items_counterexample :
    (get_portfolio_allocation dbC3).2 = 15
    ∧ (((get_portfolio_allocation dbC3).1.map (fun it => it.value)).sum = 10)
    ∧ (get_portfolio_allocation dbC3).2 ≠
        ((get_portfolio_allocation dbC3).1.map (fun it => it.value)).sum
    ∧ (((get_portfolio_allocation dbC3).1.map (fun it => it.percentage)).sum = 200 / 3) := by
  have halloc : get_portfolio_allocation dbC3 =
      ([⟨"A", "Alpha", 1, 10, 10, 200 / 3⟩], 15) := by
    simp [get_portfolio_allocation, calculate_portfolio_holdings, dbC3, applyTxHold,
      hUpdate, allocStep, latestRec, pickLatest, nameMissing]
    norm_num
  rw [halloc]
  norm_num

/-- A database where every held asset is named. -/
def dbC3N : DB :=
  ⟨[⟨"A", some "Alpha", "stock"⟩], [⟨"A", 1, "buy", 2, 10, 0⟩], [⟨"A", 1, 10⟩]⟩

theorem c3_allocation_totals_amended_witness :
    ((get_portfolio_allocation dbC3N).2 =
      ((get_portfolio_allocation dbC3N).1.map (fun it => it.value)).sum)
    ∧ ((get_portfolio_allocation dbC3N).1.map (fun it => it.percentage)).sum = 100 := by
  have h := (c3_allocation_totals_amended dbC3N).2.2.2
    (by
      intro kv hkv
      simp [calculate_portfolio_holdings, dbC3N, applyTxHold, hUpdate] at hkv
      simp [hkv, foundNamed, dbC3N, nameMissing])
  refine ⟨h.1, h.2 ?_⟩
  have htot : (get_portfolio_allocation dbC3N).2 = 20 := by
    simp [get_portfolio_allocation, calculate_portfolio_holdings, dbC3N, applyTxHold,
      hUpdate, allocStep, latestRec, pickLatest, nameMissing]
    norm_num
  rw [htot]
  norm_num

/-! Price fetch and sync pipeline (src/backend/sync.py). Pandas float
    cells are modelled explicitly, because validate_price_data tests
    for NaN and infinity; comparisons follow IEEE semantics: NaN is not
    greater than 0, positive infinity is. -/

inductive FVal where
  | nan : FVal
  | inf : FVal
  | ninf : FVal
  | num : ℚ → FVal
deriving DecidableEq, Repr

/-- The pandas comparison df[col] > 0. -/
def fvalGtZero : FVal → Bool
  | .nan => false
  | .inf => true
  | .ninf => false
  | .num q => decide (0 < q)

/-- The pandas comparison df[col] >= 0. -/
def fvalGeZero : FVal → Bool
  | .nan => false
  | .inf => true
  | .ninf => false
  | .num q => decide (0 ≤ q)

/-- The pandas test df[col].notna(). -/
def fvalNotNa : FVal → Bool
  | .nan => false
  | _ => true

/-- The numpy test isinf. -/
def fvalIsInf : FVal → Bool
  | .inf => true
  | .ninf => true
  | _ => false

/-- A normalized data-frame row as assembled by every adapter in
    get_stock_data / get_fund_data: each adapter constructs exactly the
    date column plus these twelve price columns and volume (missing
    sides of the outer joins surface as NaN cells, not missing
    columns). The open column is named open_ because open is a reserved
    word in Lean. -/
structure Row where
  date : Nat
  open_ : FVal
  high : FVal
  low : FVal
  close : FVal
  qfq_open : FVal
  qfq_high : FVal
  qfq_low : FVal
  qfq_close : FVal
  adj_open : FVal
  adj_high : FVal
  adj_low : FVal
  adj_close : FVal
  volume : FVal
deriving DecidableEq, Repr

/-- The price column list of validate_price_data (sync.py lines 20-22),
    as accessors, in source order. -/
def price_cols : List (Row → FVal) :=
  [Row.open_, Row.high, Row.low, Row.close,
   Row.qfq_open, Row.qfq_high, Row.qfq_low, Row.qfq_close,
   Row.adj_open, Row.adj_high, Row.adj_low, Row.adj_close]

/-- validate_price_data (sync.py lines 9-42): for each price column
    drop rows that are not strictly positive, then NaN rows, then
    infinite rows; then require volume non-negative, not NaN and
    finite. The early return on an empty frame is omitted because
    filtering an empty list is the empty list. -/
def validate_price_data (df : List Row) : List Row :=
  let df2 := price_cols.foldl
    (fun d col =>
      ((d.filter (fun r => fvalGtZero (col r))).filter
        (fun r => fvalNotNa (col r))).filter (fun r => !fvalIsInf (col r)))
    df
  ((df2.filter (fun r => fvalGeZero r.volume)).filter
    (fun r => fvalNotNa r.volume)).filter (fun r => !fvalIsInf r.volume)

/-- A price value that survived validation: a strictly positive finite
    number. -/
def fvalPosFin (v : FVal) : Prop := ∃ q : ℚ, v = FVal.num q ∧ 0 < q

/-- A volume value that survived validation: a non-negative finite
    number. -/
def fvalNonnegFin (v : FVal) : Prop := ∃ q : ℚ, v = FVal.num q ∧ 0 ≤ q

theorem fvalPosFin_of_checks (v : FVal) (h1 : fvalGtZero v = true)
    (h2 : fvalIsInf v = false) : fvalPosFin v := by
  cases v with
  | nan => simp [fvalGtZero] at h1
  | inf => simp [fvalIsInf] at h2
  | ninf => simp [fvalGtZero] at h1
  | num q =>
    simp only [fvalGtZero, decide_eq_true_eq] at h1
    exact ⟨q, rfl, h1⟩

theorem fvalNonnegFin_of_checks (v : FVal) (h1 : fvalGeZero v = true)
    (h2 : fvalIsInf v = false) : fvalNonnegFin v := by
  cases v with
  | nan => simp [fvalGeZero] at h1
  | inf => simp [fvalIsInf] at h2
  | ninf => simp [fvalGeZero] at h1
  | num q =>
    simp only [fvalGeZero, decide_eq_true_eq] at h1
    exact ⟨q, rfl, h1⟩

theorem validate_fold_mem (cols : List (Row → FVal)) :
    ∀ (d : List Row) (r : Row),
      r ∈ cols.foldl
        (fun d col =>
          ((d.filter (fun r => fvalGtZero (col r))).filter
            (fun r => fvalNotNa (col r))).filter (fun r => !fvalIsInf (col r)))
        d →
      r ∈ d ∧ ∀ col ∈ cols, fvalGtZero (col r) = true ∧ fvalIsInf (col r) = false := by
  induction cols with
  | nil => intro d r h; exact ⟨h, by simp⟩
  | cons col cols ih =>
    intro d r h
    simp only [List.foldl_cons] at h
    obtain ⟨hmem, hrest⟩ := ih _ r h
    rw [List.mem_filter, List.mem_filter, List.mem_filter] at hmem
    obtain ⟨⟨⟨hd, hgt⟩, _⟩, hninf⟩ := hmem
    refine ⟨hd, ?_⟩
    intro c hc
    rcases List.mem_cons.mp hc with hhead | htail
    · subst hhead
      exact ⟨hgt, by simpa using hninf⟩
    · exact hrest c htail

/-- Every row surviving validate_price_data has strictly positive
    finite values in all twelve price columns and a non-negative finite
    volume. -/
theorem validate_price_data_valid (df : List Row) (r : Row)
    (h : r ∈ validate_price_data df) :
    r ∈ df ∧ (∀ col ∈ price_cols, fvalPosFin (col r)) ∧ fvalNonnegFin r.volume := by
  unfold validate_price_data at h
  rw [List.mem_filter, List.mem_filter, List.mem_filter] at h
  obtain ⟨⟨⟨hfold, hge⟩, _⟩, hvninf⟩ := h
  obtain ⟨hdf, hcols⟩ := validate_fold_mem price_cols df r hfold
  refine ⟨hdf, ?_, ?_⟩
  · intro col hc
    obtain ⟨h1, h2⟩ := hcols col hc
    exact fvalPosFin_of_checks _ h1 h2
  · exact fvalNonnegFin_of_checks _ hge (by simpa using hvninf)

/-- One adapter attempt as structured identically in all three branches
    of get_stock_data and in get_fund_data: the provider fetch and
    frame assembly (an external call plus pandas reshaping, taken as a
    parameter), the emptiness check on the assembled frame, validation,
    and the emptiness check on the validated frame. -/
def adapterBlock (fetched : Except String (List Row))
    (emptyMsg filteredMsg : String) : Except String (List Row) :=
  match fetched with
  | .error e => .error e
  | .ok df =>
    if df.isEmpty then .error emptyMsg
    else
      let v := validate_price_data df
      if v.isEmpty then .error filteredMsg else .ok v

def eastBlock (fetched : Except String (List Row)) : Except String (List Row) :=
  adapterBlock fetched "East Money returned empty data"
    "All data was filtered out as invalid"

def tencentBlock (fetched : Except String (List Row)) : Except String (List Row) :=
  adapterBlock fetched "Tencent returned empty qfq data"
    "All Tencent data was filtered out as invalid"

def sinaBlock (fetched : Except String (List Row)) : Except String (List Row) :=
  adapterBlock fetched "Sina returned empty data"
    "All Sina data was filtered out as invalid"

/-- get_stock_data (sync.py lines 44-174): try East Money, then
    Tencent, then Sina; each failed attempt is caught and the next
    source tried; when the last attempt fails too, the raised error
    carries only that last failure message. The second component
    records which adapters were consulted, in order. -/
def get_stock_data (symbol : String)
    (eastFetch tencentFetch sinaFetch : Except String (List Row)) :
    Except String (List Row) × List String :=
  match eastBlock eastFetch with
  | .ok df => (.ok df, ["East Money"])
  | .error _e1 =>
    match tencentBlock tencentFetch with
    | .ok df => (.ok df, ["East Money", "Tencent"])
    | .error _e2 =>
      match sinaBlock sinaFetch with
      | .ok df => (.ok df, ["East Money", "Tencent", "Sina"])
      | .error e3 =>
        (.error ("All data sources failed for " ++ symbol ++ ": " ++ e3),
         ["East Money", "Tencent", "Sina"])

/-- get_fund_data (sync.py lines 176-220): a single East Money fund
    source; its exceptions propagate uncaught. -/
def get_fund_data (fetched : Except String (List Row)) : Except String (List Row) :=
  match fetched with
  | .error e => .error e
  | .ok df =>
    if df.isEmpty then .error "Merged fund data is empty"
    else
      let v := validate_price_data df
      if v.isEmpty then .error "All fund data was filtered out as invalid" else .ok v

/-- A persisted price_history row as written by sync_asset_data
    (models.py PriceHistory, full column set), keyed by the unique
    asset symbol. -/
structure PriceRecordStored where
  symbol : String
  date : Nat
  open_ : FVal
  high : FVal
  low : FVal
  close : FVal
  adj_open : FVal
  adj_high : FVal
  adj_low : FVal
  adj_close : FVal
  qfq_open : FVal
  qfq_high : FVal
  qfq_low : FVal
  qfq_close : FVal
  volume : FVal
deriving DecidableEq, Repr

/-- The PriceHistory constructor call of sync_asset_data (sync.py lines
    265-283). -/
def mkStored (symbol : String) (r : Row) : PriceRecordStored :=
  ⟨symbol, r.date, r.open_, r.high, r.low, r.close,
   r.adj_open, r.adj_high, r.adj_low, r.adj_close,
   r.qfq_open, r.qfq_high, r.qfq_low, r.qfq_close, r.volume⟩

/-- The database state touched by sync.py: the asset catalog and the
    price store. -/
structure SyncDB where
  assets : List Asset
  store : List PriceRecordStored
deriving Repr

/-- The outcome of one sync_asset_data call: the returned or raised
    result, the database afterwards, and whether a price fetch was
    attempted. -/
structure SyncResult where
  res : Except String Unit
  db : SyncDB
  fetched : Bool
deriving Repr

/-- Name backfill of sync_asset_data (sync.py lines 244-252): create
    the asset when absent; when present with a falsy name, set it. -/
def backfillName : List Asset → String → String → List Asset
  | [], _, _ => []
  | a :: rest, symbol, nm =>
    if a.symbol = symbol then
      (if pyFalsyOptStr a.name then { a with name := some nm } else a) :: rest
    else a :: backfillName rest symbol nm

def ensureAsset (db : SyncDB) (symbol nm assetType : String) : SyncDB :=
  match db.assets.find? (fun a => decide (a.symbol = symbol)) with
  | none => { db with assets := db.assets ++ [⟨symbol, some nm, assetType⟩] }
  | some _ => { db with assets := backfillName db.assets symbol nm }

/-- The name resolution step of sync_asset_data (sync.py lines
    226-235): only when the supplied name is falsy and the asset is a
    stock is the metadata lookup consulted, and only a found value
    replaces the name. -/
def resolvedName (name lookupName : Option String) (assetType : String) :
    Option String :=
  if pyFalsyOptStr name && decide (assetType = "stock") then
    match lookupName with
    | some v => some v
    | none => name
  else name

/-- sync_asset_data (sync.py lines 222-293). The akshare name lookup
    outcome is the lookupName parameter (none when the call failed, was
    not a data frame, or had no name row); the three stock fetches and
    the fund fetch are parameters as in get_stock_data; commitOk models
    whether the final commit succeeds (on failure the batch rolls
    back). Stored rows are appended; the unique (asset, date) key makes
    the merge an insert for new dates. -/
def sync_asset_data (db : SyncDB) (symbol assetType : String)
    (name lookupName : Option String)
    (eastFetch tencentFetch sinaFetch fundFetch : Except String (List Row))
    (commitOk : Bool) : SyncResult :=
  let name1 : Option String := resolvedName name lookupName assetType
  if nameMissing name1 then
    { res := .error ("Failed to get stock name for " ++ symbol ++ ". Sync aborted."),
      db := db, fetched := false }
  else
    let nm := name1.getD ""
    let db1 := ensureAsset db symbol nm assetType
    if assetType = "stock" then
      match (get_stock_data symbol eastFetch tencentFetch sinaFetch).1 with
      | .error e => { res := .error e, db := db1, fetched := true }
      | .ok rows =>
        { res := .ok (),
          db := if commitOk then
              { db1 with store := db1.store ++ rows.map (mkStored symbol) }
            else db1,
          fetched := true }
    else if assetType = "fund" then
      match get_fund_data fundFetch with
      | .error e => { res := .error e, db := db1, fetched := true }
      | .ok rows =>
        { res := .ok (),
          db := if commitOk then
              { db1 with store := db1.store ++ rows.map (mkStored symbol) }
            else db1,
          fetched := true }
    else
      { res := .ok (), db := db1, fetched := false }

/-- A persisted record satisfying the price invariant: all twelve price
    fields strictly positive and finite, volume non-negative and
    finite. -/
def storedValid (p : PriceRecordStored) : Prop :=
  fvalPosFin p.open_ ∧ fvalPosFin p.high ∧ fvalPosFin p.low ∧ fvalPosFin p.close
  ∧ fvalPosFin p.adj_open ∧ fvalPosFin p.adj_high ∧ fvalPosFin p.adj_low
  ∧ fvalPosFin p.adj_close ∧ fvalPosFin p.qfq_open ∧ fvalPosFin p.qfq_high
  ∧ fvalPosFin p.qfq_low ∧ fvalPosFin p.qfq_close ∧ fvalNonnegFin p.volume

theorem mkStored_valid (symbol : String) (r : Row)
    (h : ∀ col ∈ price_cols, fvalPosFin (col r)) (hv : fvalNonnegFin r.volume) :
    storedValid (mkStored symbol r) := by
  refine ⟨h Row.open_ ?_, h Row.high ?_, h Row.low ?_, h Row.close ?_,
    h Row.adj_open ?_, h Row.adj_high ?_, h Row.adj_low ?_, h Row.adj_close ?_,
    h Row.qfq_open ?_, h Row.qfq_high ?_, h Row.qfq_low ?_, h Row.qfq_close ?_,
    hv⟩ <;> simp [price_cols]

theorem adapterBlock_ok (fetched : Except String (List Row))
    (m1 m2 : String) (df : List Row) (h : adapterBlock fetched m1 m2 = .ok df) :
    df ≠ [] ∧ ∀ r ∈ df, (∀ col ∈ price_cols, fvalPosFin (col r)) ∧ fvalNonnegFin r.volume := by
  unfold adapterBlock at h
  cases fetched with
  | error e => simp at h
  | ok d0 =>
    by_cases hemp : d0.isEmpty
    · simp [hemp] at h
    · simp only [hemp, Bool.false_eq_true, if_false] at h
      by_cases hv : (validate_price_data d0).isEmpty
      · simp [hv] at h
      · simp only [hv, Bool.false_eq_true, if_false, Except.ok.injEq] at h
        subst h
        refine ⟨?_, ?_⟩
        · intro hcon
          rw [hcon] at hv
          simp at hv
        · intro r hr
          exact (validate_price_data_valid d0 r hr).2

theorem get_stock_data_ok (symbol : String)
    (e t s : Except String (List Row)) (df : List Row)
    (h : (get_stock_data symbol e t s).1 = .ok df) :
    df ≠ [] ∧ ∀ r ∈ df, (∀ col ∈ price_cols, fvalPosFin (col r)) ∧ fvalNonnegFin r.volume := by
  unfold get_stock_data at h
  cases he : eastBlock e with
  | ok d => rw [he] at h; simp at h; exact h ▸ adapterBlock_ok _ _ _ d he
  | error e1 =>
    rw [he] at h
    cases ht : tencentBlock t with
    | ok d => rw [ht] at h; simp at h; exact h ▸ adapterBlock_ok _ _ _ d ht
    | error e2 =>
      rw [ht] at h
      cases hs : sinaBlock s with
      | ok d => rw [hs] at h; simp at h; exact h ▸ adapterBlock_ok _ _ _ d hs
      | error e3 => rw [hs] at h; simp at h

theorem get_fund_data_ok (fetched : Except String (List Row)) (df : List Row)
    (h : get_fund_data fetched = .ok df) :
    df ≠ [] ∧ ∀ r ∈ df, (∀ col ∈ price_cols, fvalPosFin (col r)) ∧ fvalNonnegFin r.volume := by
  unfold get_fund_data at h
  cases fetched with
  | error e => simp at h
  | ok d0 =>
    by_cases hemp : d0.isEmpty
    · simp [hemp] at h
    · simp only [hemp, Bool.false_eq_true, if_false] at h
      by_cases hv : (validate_price_data d0).isEmpty
      · simp [hv] at h
      · simp only [hv, Bool.false_eq_true, if_false, Except.ok.injEq] at h
        subst h
        refine ⟨?_, ?_⟩
        · intro hcon
          rw [hcon] at hv
          simp at hv
        · intro r hr
          exact (validate_price_data_valid d0 r hr).2

theorem ensureAsset_store (db : SyncDB) (symbol nm assetType : String) :
    (ensureAsset db symbol nm assetType).store = db.store := by
  unfold ensureAsset
  cases db.assets.find? (fun a => decide (a.symbol = symbol)) <;> rfl

/-- Claim C4: starting from a store satisfying the price invariant, the
    store after any sync_asset_data call still satisfies it: every
    persisted record has strictly positive finite prices in all twelve
    price fields and a non-negative finite volume; in particular no
    record with a non-positive, NaN or infinite close is ever present
    after a sync. -/
theorem c4_sync_store_invariant (db : SyncDB) (symbol assetType : String)
    (name lookupName : Option String)
    (e t s f : Except String (List Row)) (commitOk : Bool)
    (hdb : ∀ p ∈ db.store, storedValid p) :
    ∀ p ∈ (sync_asset_data db symbol assetType name lookupName e t s f commitOk).db.store,
      storedValid p ∧ fvalPosFin p.close := by
  have hclose : ∀ q, storedValid q → fvalPosFin q.close := fun q hq => hq.2.2.2.1
  intro p hp
  suffices hval : storedValid p from ⟨hval, hclose p hval⟩
  unfold sync_asset_data at hp
  try dsimp only at hp
  generalize resolvedName name lookupName assetType = name1 at hp
  split at hp
  · exact hdb p hp
  · split at hp
    · -- stock branch
      split at hp
      next err heq =>
        try dsimp only at hp
        rw [ensureAsset_store] at hp
        exact hdb p hp
      next rows heq =>
        try dsimp only at hp
        obtain ⟨_, hrows⟩ := get_stock_data_ok symbol e t s rows heq
        split at hp
        · try dsimp only at hp
          rw [ensureAsset_store] at hp
          rcases List.mem_append.mp hp with hold | hnew
          · exact hdb p hold
          · obtain ⟨r, hr, hmk⟩ := List.mem_map.mp hnew
            obtain ⟨hcols, hvol⟩ := hrows r hr
            rw [← hmk]
            exact mkStored_valid symbol r hcols hvol
        · try dsimp only at hp
          rw [ensureAsset_store] at hp
          exact hdb p hp
    · split at hp
      · -- fund branch
        split at hp
        next err heq =>
          try dsimp only at hp
          rw [ensureAsset_store] at hp
          exact hdb p hp
        next rows heq =>
          try dsimp only at hp
          obtain ⟨_, hrows⟩ := get_fund_data_ok f rows heq
          split at hp
          · try dsimp only at hp
            rw [ensureAsset_store] at hp
            rcases List.mem_append.mp hp with hold | hnew
            · exact hdb p hold
            · obtain ⟨r, hr, hmk⟩ := List.mem_map.mp hnew
              obtain ⟨hcols, hvol⟩ := hrows r hr
              rw [← hmk]
              exact mkStored_valid symbol r hcols hvol
          · try dsimp only at hp
            rw [ensureAsset_store] at hp
            exact hdb p hp
      · try dsimp only at hp
        rw [ensureAsset_store] at hp
        exact hdb p hp

/-- Whether the pattern occurs at the start of the haystack. -/
def matchesAt : List Char → List Char → Bool
  | [], _ => true
  | _ :: _, [] => false
  | p :: ps, c :: cs => decide (p = c) && matchesAt ps cs

/-- Whether the pattern occurs anywhere in the haystack. -/
def containsSub : List Char → List Char → Bool
  | [], pat => pat.isEmpty
  | c :: cs, pat => matchesAt pat (c :: cs) || containsSub cs pat

/-- Substring test used to express that an error message carries a
    failure reason. -/
def strContains (s pat : String) : Bool :=
  containsSub s.data pat.data

/-- Claim C5 (amended): the stock fetch consults East Money, Tencent
    and Sina strictly in that order; the first adapter whose block
    yields a non-empty validated dataset wins and later adapters are
    not consulted; an earlier failure is not surfaced when a later
    adapter succeeds; and when all three fail the fetch raises an error
    carrying only the last (Sina) failure reason. -/
theorem c5_adapter_order_amended (symbol : String)
    (e t s : Except String (List Row)) :
    (∀ df, eastBlock e = .ok df →
      get_stock_data symbol e t s = (.ok df, ["East Money"]))
    ∧ (∀ e1 df, eastBlock e = .error e1 → tencentBlock t = .ok df →
      get_stock_data symbol e t s = (.ok df, ["East Money", "Tencent"]))
    ∧ (∀ e1 e2 df, eastBlock e = .error e1 → tencentBlock t = .error e2 →
        sinaBlock s = .ok df →
      get_stock_data symbol e t s = (.ok df, ["East Money", "Tencent", "Sina"]))
    ∧ (∀ e1 e2 e3, eastBlock e = .error e1 → tencentBlock t = .error e2 →
        sinaBlock s = .error e3 →
      get_stock_data symbol e t s =
        (.error ("All data sources failed for " ++ symbol ++ ": " ++ e3),
         ["East Money", "Tencent", "Sina"]))
    ∧ (∀ df, (eastBlock e = .ok df ∨ tencentBlock t = .ok df ∨ sinaBlock s = .ok df) →
      df ≠ [] ∧ ∀ r ∈ df, (∀ col ∈ price_cols, fvalPosFin (col r)) ∧
        fvalNonnegFin r.volume) := by
  refine ⟨?_, ?_, ?_, ?_, ?_⟩
  · intro df h
    unfold get_stock_data
    rw [h]
  · intro e1 df h1 h2
    unfold get_stock_data
    rw [h1, h2]
  · intro e1 e2 df h1 h2 h3
    unfold get_stock_data
    rw [h1, h2, h3]
  · intro e1 e2 e3 h1 h2 h3
    unfold get_stock_data
    rw [h1, h2, h3]
  · intro df h
    rcases h with h | h | h
    · exact adapterBlock_ok _ _ _ df h
    · exact adapterBlock_ok _ _ _ df h
    · exact adapterBlock_ok _ _ _ df h

/-- A fully valid normalized row. -/
def goodRow (d : Nat) : Row :=
  ⟨d, .num 2, .num 3, .num 1, .num 2, .num 2, .num 3, .num 1, .num 2,
   .num 2, .num 3, .num 1, .num 2, .num 100⟩

/-- A row with a NaN close, to be discarded by validation. -/
def badRow : Row :=
  ⟨6, .num 2, .num 3, .num 1, FVal.nan, .num 2, .num 3, .num 1, .num 2,
   .num 2, .num 3, .num 1, .num 2, .num 100⟩

theorem c5_adapter_order_amended_witness :
    get_stock_data "000001" (Except.error "boom")
      (Except.ok [goodRow 1, goodRow 2, goodRow 3, goodRow 4, goodRow 5])
      (Except.error "never") =
      (Except.ok [goodRow 1, goodRow 2, goodRow 3, goodRow 4, goodRow 5],
       ["East Money", "Tencent"]) := by
  apply (c5_adapter_order_amended "000001" (Except.error "boom")
    (Except.ok [goodRow 1, goodRow 2, goodRow 3, goodRow 4, goodRow 5])
    (Except.error "never")).2.1 "boom"
  · rfl
  · show tencentBlock _ = _
    unfold tencentBlock adapterBlock
    simp [validate_price_data, price_cols, goodRow, fvalGtZero, fvalNotNa, fvalIsInf,
      fvalGeZero]

/-- Claim C5 as stated is false: with all three adapters failing with
    distinct reasons, the raised error message carries only the Sina
    reason; the East Money and Tencent reasons do not occur in it. -/
theorem c5_error_reasons_counterexample :
    (get_stock_data "600001" (Except.error "EastReason")
        (Except.error "TencentReason") (Except.error "SinaReason")).1 =
      Except.error "All data sources failed for 600001: SinaReason"
    ∧ strContains "All data sources failed for 600001: SinaReason" "EastReason" = false
    ∧ strContains "All data sources failed for 600001: SinaReason" "TencentReason" = false := by
  refine ⟨rfl, by decide, by decide⟩

/-- Claim C7: a stock sync with no usable supplied name whose metadata
    lookup yields no non-blank name aborts with an error before any
    price fetch, and leaves the database untouched: no instrument is
    created or updated and nothing is written to the price store. -/
theorem c7_name_resolution_aborts (db : SyncDB) (symbol : String)
    (name lookupName : Option String)
    (e t s f : Except String (List Row)) (commitOk : Bool)
    (hname : pyFalsyOptStr name = true)
    (hlook : ∀ v, lookupName = some v → nameMissing (some v) = true) :
    sync_asset_data db symbol "stock" name lookupName e t s f commitOk =
      { res := Except.error ("Failed to get stock name for " ++ symbol ++
          ". Sync aborted."),
        db := db, fetched := false } := by
  have hres : nameMissing (resolvedName name lookupName "stock") = true := by
    unfold resolvedName
    rw [hname]
    simp only [Bool.true_and, decide_True]
    cases lookupName with
    | some v =>
      have hv := hlook v rfl
      simpa using hv
    | none =>
      cases name with
      | none => simp [nameMissing]
      | some str =>
        have hstr : str.data = [] := by
          simpa [pyFalsyOptStr, List.isEmpty_iff] using hname
        simp [nameMissing, hstr]
  unfold sync_asset_data
  simp only [hres, if_true]

theorem c7_name_resolution_aborts_witness :
    sync_asset_data ⟨[], []⟩ "600000" "stock" none (some " ")
      (Except.error "a") (Except.error "b") (Except.error "c") (Except.error "d")
      true =
      { res := Except.error ("Failed to get stock name for 600000. Sync aborted."),
        db := ⟨[], []⟩, fetched := false } := by
  have h := c7_name_resolution_aborts ⟨[], []⟩ "600000" none (some " ")
    (Except.error "a") (Except.error "b") (Except.error "c") (Except.error "d")
    true rfl
    (by
      intro v hv
      injection hv with hv
      rw [← hv]
      decide)
  simpa using h

theorem c4_sync_store_invariant_witness :
    storedValid (mkStored "600519" (goodRow 1))
    ∧ fvalPosFin (mkStored "600519" (goodRow 1)).close := by
  apply c4_sync_store_invariant ⟨[], []⟩ "600519" "stock" (some "Moutai") none
    (Except.ok [goodRow 1, badRow]) (Except.error "x") (Except.error "y")
    (Except.error "z") true (by simp)
  show mkStored "600519" (goodRow 1) ∈ (sync_asset_data _ _ _ _ _ _ _ _ _ _).db.store
  simp [sync_asset_data, resolvedName, pyFalsyOptStr, nameMissing, ensureAsset,
    get_stock_data, eastBlock, adapterBlock, validate_price_data, price_cols,
    goodRow, badRow, mkStored, fvalGtZero, fvalNotNa, fvalIsInf, fvalGeZero]

/-! Transaction creation and bulk import (src/backend/main.py). -/

/-- The mapped attributes of the Transaction ORM class (models.py
    lines 43-53): its columns plus the asset relationship. The model
    defines no notes column. -/
def transactionAttrs : List String :=
  ["id", "asset_id", "date", "type", "quantity", "price", "fees", "asset"]

/-- The SQLAlchemy declarative constructor: it accepts only keyword
    arguments naming a mapped attribute of the class, and raises
    TypeError for any other keyword, whatever value it carries. -/
def ormNewTransaction (kwargs : List String) : Except String Unit :=
  match kwargs.find? (fun k => decide (k ∉ transactionAttrs)) with
  | some k => .error (k ++ " is an invalid keyword argument for Transaction")
  | none => .ok ()

/-- The keyword arguments create_transaction always passes to the
    Transaction constructor (main.py lines 91-99); notes is always
    among them, whether or not the request supplied a notes value. -/
def createTransactionKwargs : List String :=
  ["asset_id", "date", "type", "quantity", "price", "fees", "notes"]

/-- Claim C8 (code bug): the manual-entry endpoint always raises,
    because main.py passes a notes keyword that the Transaction model
    does not define; no transaction is created and no notes value can
    be read back. -/
theorem c8_create_transaction_notes_crash :
    ormNewTransaction createTransactionKwargs =
      Except.error "notes is an invalid keyword argument for Transaction" := by
  rfl

/-- One normalized row handed to the import loop of import_transactions
    (main.py lines 328-371), after the format-specific renaming and
    parsing above it (deterministic per row, identical across repeated
    re-imports of the same file). -/
structure ImportRow where
  symbol : String
  asset_name : String
  date : Nat
  type : String
  quantity : ℚ
  price : ℚ
  fees : ℚ
deriving DecidableEq, Repr

/-- The transaction tuple built from a row (main.py lines 340-344 and
    362-369): the dedup query compares exactly these fields. -/
def rowTx (r : ImportRow) : Transaction :=
  ⟨r.symbol, r.date, r.type, r.quantity, r.price, r.fees⟩

/-- Session state during the import loop. The session has autoflush
    disabled, so rows added in this loop stay pending and invisible to
    queries until a commit; creating a missing asset commits (main.py
    line 336), which also flushes the pending transactions. -/
structure ImportState where
  assets : List Asset
  committed : List Transaction
  pending : List Transaction
  nImported : Nat
  skipped : Nat
deriving Repr

/-- One iteration of the import loop (main.py lines 328-371). -/
def importStep (st : ImportState) (r : ImportRow) : ImportState :=
  let st1 :=
    if (st.assets.find? (fun a => decide (a.symbol = r.symbol))).isSome then st
    else { st with assets := st.assets ++ [⟨r.symbol, some r.asset_name, "stock"⟩],
                   committed := st.committed ++ st.pending, pending := [] }
  if (st1.committed.find? (fun tx => decide (tx = rowTx r))).isSome then
    { st1 with skipped := st1.skipped + 1 }
  else
    { st1 with pending := st1.pending ++ [rowTx r], nImported := st1.nImported + 1 }

/-- The durable state seen by the import endpoint. -/
structure ImportDB where
  assets : List Asset
  txs : List Transaction
deriving Repr

structure ImportResult where
  db : ImportDB
  nImported : Nat
  skipped : Nat
deriving Repr

/-- import_transactions (main.py lines 239-391), restricted to its
    loop over already-normalized rows; the final commit flushes the
    remaining pending transactions. -/
def import_transactions (db : ImportDB) (rows : List ImportRow) : ImportResult :=
  let fin := rows.foldl importStep ⟨db.assets, db.txs, [], 0, 0⟩
  ⟨⟨fin.assets, fin.committed ++ fin.pending⟩, fin.nImported, fin.skipped⟩

theorem importStep_tx_mono (st : ImportState) (r : ImportRow) (x : Transaction)
    (hx : x ∈ st.committed ++ st.pending) :
    x ∈ (importStep st r).committed ++ (importStep st r).pending := by
  unfold importStep
  dsimp only
  split
  · split
    · simpa using hx
    · rw [List.mem_append] at hx ⊢
      rcases hx with h | h
      · exact Or.inl h
      · exact Or.inr (List.mem_append_left _ h)
  · split
    · simpa using hx
    · simp only [List.append_nil, List.mem_append] at hx ⊢
      rcases hx with h | h
      · exact Or.inl (Or.inl h)
      · exact Or.inl (Or.inr h)

theorem importStep_asset_mono (st : ImportState) (r : ImportRow) (a : Asset)
    (ha : a ∈ st.assets) : a ∈ (importStep st r).assets := by
  unfold importStep
  dsimp only
  split
  · split <;> exact ha
  · split <;> exact List.mem_append_left _ ha

theorem importStep_tx_self (st : ImportState) (r : ImportRow) :
    rowTx r ∈ (importStep st r).committed ++ (importStep st r).pending := by
  unfold importStep
  dsimp only
  split
  · split
    · rename_i hdup
      dsimp only
      obtain ⟨tx, htx, hpred⟩ := List.find?_isSome.mp hdup
      simp only [decide_eq_true_eq] at hpred
      rw [List.mem_append]
      exact Or.inl (hpred ▸ htx)
    · dsimp only
      simp
  · split
    · rename_i hdup
      dsimp only
      obtain ⟨tx, htx, hpred⟩ := List.find?_isSome.mp hdup
      simp only [decide_eq_true_eq] at hpred
      rw [List.mem_append]
      exact Or.inl (hpred ▸ htx)
    · dsimp only
      simp

theorem importStep_asset_self (st : ImportState) (r : ImportRow) :
    ∃ a ∈ (importStep st r).assets, a.symbol = r.symbol := by
  unfold importStep
  dsimp only
  by_cases hf : (st.assets.find? (fun a => decide (a.symbol = r.symbol))).isSome = true
  · obtain ⟨a, ha, hpred⟩ := List.find?_isSome.mp hf
    simp only [decide_eq_true_eq] at hpred
    rw [if_pos hf]
    split <;> exact ⟨a, ha, hpred⟩
  · rw [if_neg hf]
    split <;>
      exact ⟨⟨r.symbol, some r.asset_name, "stock"⟩,
        List.mem_append_right _ (List.mem_singleton_self _), rfl⟩

theorem importFold_tx_mono (rows : List ImportRow) :
    ∀ (st : ImportState) (x : Transaction), x ∈ st.committed ++ st.pending →
      x ∈ (rows.foldl importStep st).committed ++ (rows.foldl importStep st).pending := by
  induction rows with
  | nil => intro st x hx; simpa using hx
  | cons r rows ih =>
    intro st x hx
    simp only [List.foldl_cons]
    exact ih _ x (importStep_tx_mono st r x hx)

theorem importFold_asset_mono (rows : List ImportRow) :
    ∀ (st : ImportState) (a : Asset), a ∈ st.assets →
      a ∈ (rows.foldl importStep st).assets := by
  induction rows with
  | nil => intro st a ha; simpa using ha
  | cons r rows ih =>
    intro st a ha
    simp only [List.foldl_cons]
    exact ih _ a (importStep_asset_mono st r a ha)

theorem importFold_contains (rows : List ImportRow) :
    ∀ (st : ImportState) (r : ImportRow), r ∈ rows →
      rowTx r ∈ (rows.foldl importStep st).committed ++ (rows.foldl importStep st).pending
      ∧ ∃ a ∈ (rows.foldl importStep st).assets, a.symbol = r.symbol := by
  induction rows with
  | nil => intro st r hr; simp at hr
  | cons r0 rows ih =>
    intro st r hr
    simp only [List.foldl_cons]
    rcases List.mem_cons.mp hr with heq | htail
    · subst heq
      constructor
      · exact importFold_tx_mono rows _ _ (importStep_tx_self st r)
      · obtain ⟨a, ha, hsym⟩ := importStep_asset_self st r
        exact ⟨a, importFold_asset_mono rows _ a ha, hsym⟩
    · exact ih _ r htail

theorem importFold_all_dup (rows : List ImportRow) :
    ∀ st : ImportState, st.pending = [] →
      (∀ r ∈ rows, rowTx r ∈ st.committed ∧ ∃ a ∈ st.assets, a.symbol = r.symbol) →
      rows.foldl importStep st = { st with skipped := st.skipped + rows.length } := by
  induction rows with
  | nil => intro st _ _; simp
  | cons r rows ih =>
    intro st hpend hall
    obtain ⟨htx, ⟨a, ha, hsym⟩⟩ := hall r (List.mem_cons_self r rows)
    have hstep : importStep st r = { st with skipped := st.skipped + 1 } := by
      unfold importStep
      dsimp only
      have hfa : (st.assets.find? (fun a => decide (a.symbol = r.symbol))).isSome = true :=
        List.find?_isSome.mpr ⟨a, ha, by simp [hsym]⟩
      rw [if_pos hfa]
      have hfd : (st.committed.find? (fun tx => decide (tx = rowTx r))).isSome = true :=
        List.find?_isSome.mpr ⟨rowTx r, htx, by simp⟩
      rw [if_pos hfd]
    simp only [List.foldl_cons, hstep]
    have hpend2 : ({ st with skipped := st.skipped + 1 } : ImportState).pending = [] :=
      hpend
    have hall2 : ∀ r2 ∈ rows,
        rowTx r2 ∈ ({ st with skipped := st.skipped + 1 } : ImportState).committed
        ∧ ∃ a ∈ ({ st with skipped := st.skipped + 1 } : ImportState).assets,
            a.symbol = r2.symbol :=
      fun r2 hr2 => hall r2 (List.mem_cons_of_mem r hr2)
    rw [ih _ hpend2 hall2]
    simp only [ImportState.mk.injEq, List.length_cons, true_and, and_true]
    omega

/-- Claim C9: re-importing the same normalized rows is a no-op: the
    database is unchanged, zero transactions are imported, every row is
    counted as a skipped duplicate, and indeed each row exactly matches
    a transaction already stored by the first import. -/
theorem c9_import_idempotent (db : ImportDB) (rows : List ImportRow) :
    (import_transactions (import_transactions db rows).db rows).db =
      (import_transactions db rows).db
    ∧ (import_transactions (import_transactions db rows).db rows).nImported = 0
    ∧ (import_transactions (import_transactions db rows).db rows).skipped = rows.length
    ∧ ∀ r ∈ rows, rowTx r ∈ (import_transactions db rows).db.txs := by
  have hcontains : ∀ r ∈ rows, rowTx r ∈ (import_transactions db rows).db.txs
      ∧ ∃ a ∈ (import_transactions db rows).db.assets, a.symbol = r.symbol := by
    intro r hr
    exact importFold_contains rows ⟨db.assets, db.txs, [], 0, 0⟩ r hr
  have hsecond := importFold_all_dup rows
    ⟨(import_transactions db rows).db.assets, (import_transactions db rows).db.txs,
      [], 0, 0⟩ rfl
    (fun r hr => (hcontains r hr))
  refine ⟨?_, ?_, ?_, fun r hr => (hcontains r hr).1⟩
  · show (⟨⟨_, _⟩, _, _⟩ : ImportResult).db = _
    rw [hsecond]
    simp
  · show (⟨⟨_, _⟩, _, _⟩ : ImportResult).nImported = 0
    rw [hsecond]
  · show (⟨⟨_, _⟩, _, _⟩ : ImportResult).skipped = rows.length
    rw [hsecond]
    simp

/-- A database exercising the carry-forward: the only position is
    opened at date 2, its price history stops at date 1, and another
    instrument has a price at date 2 providing the axis date. -/
def dbW : DB :=
  ⟨[⟨"A", some "Alpha", "stock"⟩],
   [⟨"A", 2, "buy", 2, 10, 0⟩],
   [⟨"A", 1, 10⟩, ⟨"B", 2, 7⟩]⟩

theorem sortTxs_dbW : sortTxs dbW.txs = [⟨"A", 2, "buy", 2, 10, 0⟩] := by
  rw [show dbW.txs = [(⟨"A", 2, "buy", 2, 10, 0⟩ : Transaction)] from rfl]
  exact List.perm_singleton.mp (List.mergeSort_perm _ _)

theorem axisDates_dbW : axisDates dbW.prices 2 = [2] := by
  unfold axisDates
  have h1 : ((dbW.prices.map (fun p => p.date)).filter (fun d => decide (2 ≤ d))).dedup
      = [2] := by
    simp [dbW]
  rw [h1]
  exact List.perm_singleton.mp (List.mergeSort_perm _ _)

theorem curve_dbW : calculate_equity_curve dbW = [Point.mk 2 20] := by
  unfold calculate_equity_curve
  rw [sortTxs_dbW]
  show ecLoop dbW.prices (axisDates dbW.prices 2) [⟨"A", 2, "buy", 2, 10, 0⟩] [] = _
  rw [axisDates_dbW]
  simp only [ecLoop, dailyValue, priceAt, lastBefore, pickLatest, applyTxEC, hUpdate, dbW]
  norm_num [List.takeWhile, List.dropWhile, List.find?, List.filter, List.foldl,
    applyTxEC, hUpdate, pickLatest]
  rfl

theorem firstTxDate_dbW : firstTxDate dbW = 2 := by
  unfold firstTxDate
  rw [sortTxs_dbW]

theorem c1_equity_curve_locf_value_witness :
    (Point.mk 2 20) ∈ calculate_equity_curve dbW
    ∧ (Point.mk 2 20).value = specValue dbW (Point.mk 2 20).time := by
  have hmem : (Point.mk 2 20) ∈ calculate_equity_curve dbW := by
    rw [curve_dbW]
    exact List.mem_singleton_self _
  refine ⟨hmem, ?_⟩
  exact (c1_equity_curve_locf_value dbW
    (by intro t ht; simp [dbW] at ht; simp [ht])).1 _ hmem

theorem c6_equity_curve_axis_witness :
    calculate_equity_curve ⟨[], [], []⟩ = []
    ∧ 2 ∈ (calculate_equity_curve dbW).map (fun pt => pt.time) := by
  constructor
  · exact (c6_equity_curve_axis ⟨[], [], []⟩).1 rfl
  · have h := ((c6_equity_curve_axis dbW).2 (by simp [dbW])).2.2.2 2
    apply h.mpr
    constructor
    · simp [dbW]
    · rw [firstTxDate_dbW]
